import Mathlib

/-!
Verification of the Streetmix width-units utility
(`src/assets/scripts/util/width_units.js`).

The JavaScript source is shallowly embedded: user strings are `List Char`,
JavaScript numbers are `ℚ` (the values manipulated here are all rationals;
IEEE-754 rounding is outside the scope of this embedding), and the
`undefined` result of `processWidthInput` is `Option.none`.
-/

attribute [local semireducible] Rat.add Rat.mul Rat.inv Rat.sub

namespace StreetmixWidth

/-- Unit-system enumeration: `SETTINGS_UNITS_IMPERIAL` / `SETTINGS_UNITS_METRIC`
from `users/localization`.  A missing (falsy) unit argument is modelled as
`Option.none` at use sites. -/
inductive UnitSystem where
  | imperial
  | metric
deriving DecidableEq

/-- The feet-marker character, an ASCII apostrophe (code point 39). -/
def feetChar : Char := Char.ofNat 39

/-- The inches-marker character, an ASCII double quote (code point 34). -/
def inchChar : Char := Char.ofNat 34

/-- The plus-sign character (code point 43). -/
def plusChar : Char := Char.ofNat 43

/-- The minus-sign character (code point 45). -/
def minusChar : Char := Char.ofNat 45

/-- Decimal digit test, `[0-9]`; this is what both `parseFloat` digits and the
regex class `\d` accept. -/
def isDigitChar (c : Char) : Bool := 48 ≤ c.toNat && c.toNat ≤ 57

/-- Numeric value of a decimal digit character. -/
def digitVal (c : Char) : ℕ := c.toNat - 48

/-- Value of a big-endian list of decimal digit characters. -/
def digitsToNat (ds : List Char) : ℕ := ds.foldl (fun a c => 10 * a + digitVal c) 0

/-- White space skipped by `Number.parseFloat` before the number: ASCII white
space, no-break space and BOM (the common ECMAScript StrWhiteSpace characters;
exotic Unicode space separators are not modelled). -/
def isJsWhitespace (c : Char) : Bool :=
  c.toNat = 32 || c.toNat = 9 || c.toNat = 10 || c.toNat = 11 ||
    c.toNat = 12 || c.toNat = 13 || c.toNat = 160 || c.toNat = 65279

/-- ECMAScript line terminators, the characters NOT matched by the regex
wildcard `.`. -/
def isLineTerminator (c : Char) : Bool :=
  c.toNat = 10 || c.toNat = 13 || c.toNat = 8232 || c.toNat = 8233

/-- Exponent digits of a `parseFloat` literal: if at least one digit follows,
the exponent part is consumed, otherwise the longest valid literal stops
before the `e`. -/
def expDigits (t : List Char) (sgn : ℤ) : ℤ :=
  let ds := t.takeWhile isDigitChar
  if ds.isEmpty then 0 else sgn * (digitsToNat ds : ℤ)

/-- Optional `ExponentPart` of a `parseFloat` literal (`e`/`E`, optional sign,
digits), returning the signed exponent, `0` when absent. -/
def jsParseExponent : List Char → ℤ
  | [] => 0
  | c :: t =>
    if c = 'e' ∨ c = 'E' then
      match t with
      | [] => 0
      | d :: t2 =>
        if d = plusChar then expDigits t2 1
        else if d = minusChar then expDigits t2 (-1)
        else expDigits t 1
    else 0

/-- Integer digits of the decimal literal. -/
def floatIntDigits (s : List Char) : List Char := s.takeWhile isDigitChar

/-- Remainder after the integer digits. -/
def floatRest1 (s : List Char) : List Char := s.dropWhile isDigitChar

/-- Fraction digits of the decimal literal (after a period). -/
def floatFracDigits (s : List Char) : List Char :=
  match floatRest1 s with
  | c :: t => if c = '.' then t.takeWhile isDigitChar else []
  | [] => []

/-- Remainder after the whole mantissa, where an exponent part may start. -/
def floatRest2 (s : List Char) : List Char :=
  match floatRest1 s with
  | c :: t => if c = '.' then t.dropWhile isDigitChar else c :: t
  | [] => []

/-- Unsigned decimal literal of `Number.parseFloat`
(`DecimalDigits . DecimalDigits? ExponentPart?` or
`. DecimalDigits ExponentPart?`), longest valid leading portion; `none` models
`NaN` (no valid literal at the front).  The literal `Infinity` is not
modelled (no claim depends on it and `ℚ` has no infinity). -/
def jsParseFloatBody (s : List Char) : Option ℚ :=
  if (floatIntDigits s).isEmpty && (floatFracDigits s).isEmpty then none
  else
    some (((digitsToNat (floatIntDigits s) : ℚ) +
        (digitsToNat (floatFracDigits s) : ℚ) / (10 : ℚ) ^ (floatFracDigits s).length) *
      (10 : ℚ) ^ jsParseExponent (floatRest2 s))

/-- Optional sign in front of the `parseFloat` literal. -/
def jsParseFloatSigned : List Char → Option ℚ
  | [] => none
  | c :: rest =>
    if c = plusChar then jsParseFloatBody rest
    else if c = minusChar then Option.map (fun q => -q) (jsParseFloatBody rest)
    else jsParseFloatBody (c :: rest)

/-- Model of `Number.parseFloat`: skip leading white space, optional sign,
then the longest valid decimal literal; `none` models `NaN`. -/
def jsParseFloat (s : List Char) : Option ℚ :=
  jsParseFloatSigned (s.dropWhile isJsWhitespace)

/-- `IMPERIAL_METRIC_MULTIPLIER = 30 / 100`. -/
def IMPERIAL_METRIC_MULTIPLIER : ℚ := 30 / 100

/-- `WIDTH_INPUT_CONVERSION`: ordered unit-suffix table, each entry a suffix
text and the multiplier into canonical (imperial feet) units. -/
def WIDTH_INPUT_CONVERSION : List (List Char × ℚ) :=
  [ (['m'], 1 / IMPERIAL_METRIC_MULTIPLIER),
    (['c', 'm'], 1 / 100 / IMPERIAL_METRIC_MULTIPLIER),
    ([inchChar], 1 / 12),
    (['i', 'n'], 1 / 12),
    (['i', 'n', '.'], 1 / 12),
    (['i', 'n', 'c', 'h'], 1 / 12),
    (['i', 'n', 'c', 'h', 'e', 's'], 1 / 12),
    ([feetChar], 1),
    (['f', 't'], 1),
    (['f', 't', '.'], 1),
    (['f', 'e', 'e', 't'], 1) ]

/-- One pattern character of the suffix regex `[\d\.]TEXT$`: inside `TEXT` a
literal `.` is a regex wildcard (any character but a line terminator), every
other character matches itself. -/
def jsPatCharMatches (p c : Char) : Bool :=
  if p = '.' then !(isLineTerminator c) else p == c

/-- Suffix matching on REVERSED pattern and string: the pattern characters
must match at the very end of the string and be immediately preceded by a
character of the class `[\d\.]`. -/
def revTailMatches : List Char → List Char → Bool
  | [], [] => false
  | [], c :: _ => isDigitChar c || c = '.'
  | _ :: _, [] => false
  | p :: ps, c :: cs => jsPatCharMatches p c && revTailMatches ps cs

/-- Test of `widthInput.match(new RegExp('[\\d\\.]' + text + '$'))`. -/
def regexTailMatches (text s : List Char) : Bool :=
  revTailMatches text.reverse s.reverse

/-- First matching entry of the unit-suffix table (the loop with `break`). -/
def findSuffixMultiplier (w : List Char) : Option ℚ :=
  Option.map Prod.snd (WIDTH_INPUT_CONVERSION.find? fun e => regexTailMatches e.1 w)

/-- Dash removal at the start of `parseStringForUnits` (dashes would mean
negative in the `parseFloat`); replacing when no dash is present is the
identity, so the conditional of the source is dropped. -/
def dashStripped (w : List Char) : List Char := w.filter fun c => !(c == minusChar)

/-- The default multiplier of `parseStringForUnits`: metric-to-canonical for
the metric unit system, `1` otherwise (imperial or no unit argument). -/
def defaultMultiplier (units : Option UnitSystem) : ℚ :=
  if units = some UnitSystem.metric then 1 / IMPERIAL_METRIC_MULTIPLIER else 1

/-- Model of `parseStringForUnits(widthInput, units)`: strip dashes, parse
the leading float (zero or `NaN` gives the `0` contribution), pick the
multiplier (default overridden by the first matching suffix) and
multiply. -/
def parseStringForUnits (widthInput : List Char) (units : Option UnitSystem) : ℚ :=
  match jsParseFloat (dashStripped widthInput) with
  | none => 0
  | some width =>
    if width = 0 then 0
    else width * (findSuffixMultiplier (dashStripped widthInput)).getD (defaultMultiplier units)

/-- Space removal `replace(/ /g, '')`. -/
def removeSpaces (s : List Char) : List Char := s.filter fun c => !(c == ' ')

/-- Comma-to-period normalization `replace(/,/g, '.')`. -/
def commasToPeriods (s : List Char) : List Char :=
  s.map fun c => if c = ',' then '.' else c

/-- `IMPERIAL_VULGAR_FRACTIONS`, in the key order of the object literal:
decimal-fraction text paired with the vulgar-fraction glyph. -/
def IMPERIAL_VULGAR_FRACTIONS : List (List Char × Char) :=
  [ (['.', '1', '2', '5'], '⅛'),
    (['.', '2', '5'], '¼'),
    (['.', '3', '7', '5'], '⅜'),
    (['.', '5'], '½'),
    (['.', '6', '2', '5'], '⅝'),
    (['.', '7', '5'], '¾'),
    (['.', '8', '7', '5'], '⅞') ]

/-- Replace the FIRST occurrence of the character `g` by the list `r`
(`String.replace` with a non-global `RegExp`). -/
def replaceFirst (g : Char) (r : List Char) : List Char → List Char
  | [] => []
  | c :: rest => if c = g then r ++ rest else c :: replaceFirst g r rest

/-- The vulgar-fraction loop of `processWidthInput`: for each table entry in
order, the first occurrence of the glyph (if any) is replaced by its decimal
text. -/
def replaceVulgarFractions (w : List Char) : List Char :=
  IMPERIAL_VULGAR_FRACTIONS.foldl (fun acc e => replaceFirst e.2 e.1 acc) w

/-- `String.split` on a single separator character. -/
def splitOnChar (sep : Char) : List Char → List (List Char)
  | [] => [[]]
  | c :: rest =>
    if c = sep then [] :: splitOnChar sep rest
    else
      match splitOnChar sep rest with
      | [] => [[c]]
      | h :: t => (c :: h) :: t

/-- Append an inches marker when the part has none (the body of the reduce
callback: anything coming after feet is assumed to be inches). -/
def ensureInches (cur : List Char) : List Char :=
  if inchChar ∈ cur then cur else cur ++ [inchChar]

/-- Model of `parseStringForUnits(prev.toString())` applied to the number
accumulated by the reduce: the decimal `toString` of the nonnegative finite
accumulator contains no unit suffix and `parseFloat` recovers the number
exactly, so a nonzero accumulator passes through unchanged while a zero one
takes the falsy branch and yields `0`. -/
def parseNumberString (x : ℚ) : ℚ := if x = 0 then 0 else x

/-- The compound (feet-and-inches) branch of `processWidthInput`: split on
the feet marker, re-append it to the first part, and reduce, parsing each
later part with an inches marker appended when absent. -/
def processCompound (w : List Char) (u : UnitSystem) : ℚ :=
  match splitOnChar feetChar w with
  | [] => 0
  | p0 :: rest =>
    match rest with
    | [] => 0
    | p1 :: prest =>
      List.foldl
        (fun acc cur => parseNumberString acc + parseStringForUnits (ensureInches cur) (some u))
        (parseStringForUnits (p0 ++ [feetChar]) none +
          parseStringForUnits (ensureInches p1) (some u))
        prest

/-- Model of `processWidthInput(widthInput, units)`: `none` for a missing or
empty input or a missing unit system; otherwise normalize (drop spaces,
commas to periods, vulgar fractions to decimal text), then either the
compound feet-and-inches branch (a feet marker in non-final position) or a
single-token parse. -/
def processWidthInput (widthInput : Option (List Char)) (units : Option UnitSystem) : Option ℚ :=
  match widthInput, units with
  | some w, some u =>
    if w.isEmpty then none
    else
      let w1 := commasToPeriods (removeSpaces w)
      let w2 := replaceVulgarFractions w1
      if feetChar ∈ w2.dropLast then some (processCompound w2 u)
      else some (parseStringForUnits w2 (some u))
  | _, _ => none

/-- Character for a decimal digit value (`n % 10` guards totality; the
callers always pass a value below 10). -/
def digitChar (n : ℕ) : Char := Char.ofNat (48 + n % 10)

/-- Little-endian decimal digits of a natural number, with explicit fuel so
the definition is structural and kernel-evaluable; `natToDigits` supplies
sufficient fuel. -/
def natToDigitsRevAux : ℕ → ℕ → List Char
  | 0, _ => []
  | fuel + 1, n => if n < 10 then [digitChar n] else digitChar (n % 10) :: natToDigitsRevAux fuel (n / 10)

/-- Standard big-endian decimal digit string of a natural number (the
digits `Number.toString` and `Intl.NumberFormat` emit for an integer). -/
def natToDigits (n : ℕ) : List Char := (natToDigitsRevAux (n + 1) n).reverse

/-- Thousands grouping on a REVERSED digit list: a comma after every three
digits, as the en-US `Intl.NumberFormat` groups the integer part. -/
def groupRev : List Char → List Char
  | a :: b :: c :: d :: rest => a :: b :: c :: ',' :: groupRev (d :: rest)
  | l => l

/-- Insert en-US thousands separators into a digit string. -/
def groupThousands (ds : List Char) : List Char := (groupRev ds.reverse).reverse

/-- The three decimal digits of a number below 1000, with leading zeros. -/
def digits3 (m : ℕ) : List Char :=
  [digitChar (m / 100), digitChar (m / 10 % 10), digitChar (m % 10)]

/-- Drop trailing zero characters (`Intl.NumberFormat` prints at most
`maximumFractionDigits` digits and omits trailing zeros). -/
def stripTrailingZeros (l : List Char) : List Char :=
  (l.reverse.dropWhile fun c => c == '0').reverse

/-- Integer-part characters of `formatThousandths`. -/
def formatThousandthsInt (k : ℕ) : List Char := groupThousands (natToDigits (k / 1000))

/-- Fraction-part characters of `formatThousandths` (empty when the value is
a whole number). -/
def formatThousandthsFrac (k : ℕ) : List Char :=
  if k % 1000 = 0 then [] else '.' :: stripTrailingZeros (digits3 (k % 1000))

/-- Decimal rendering of `k` thousandths in the en-US locale: grouped
integer part, then a period and the fraction digits without trailing
zeros. -/
def formatThousandths (k : ℕ) : List Char :=
  formatThousandthsInt k ++ formatThousandthsFrac k

/-- Rounding to three fraction digits, ties away from zero: the rounding of
both `Number.prototype.toFixed(3)` and `Intl.NumberFormat` with
`maximumFractionDigits: 3`. -/
def round3 (q : ℚ) : ℚ :=
  if q < 0 then -(((⌊-q * 1000 + 1 / 2⌋ : ℤ) : ℚ) / 1000)
  else ((⌊q * 1000 + 1 / 2⌋ : ℤ) : ℚ) / 1000

/-- Model of `new Intl.NumberFormat(locale, { style: 'decimal',
maximumFractionDigits: 3 }).format` for the en-US default locale (grouped
integer digits, period decimal point); the argument is already rounded to a
multiple of 1/1000 by `round3`. -/
def formatDecimalEnUS (q : ℚ) : List Char :=
  if q < 0 then minusChar :: formatThousandths (Int.toNat ⌊-q * 1000⌋)
  else formatThousandths (Int.toNat ⌊q * 1000⌋)

/-- Model of `stringifyMeasurementValue(value, units)`: `"0"` for a falsy
value; imperial renders the value itself, metric multiplies by
`IMPERIAL_METRIC_MULTIPLIER` first (the `toFixed(3)` string and the
3-fraction-digit locale format both amount to `round3`). -/
def stringifyMeasurementValue (value : ℚ) (units : Option UnitSystem) : List Char :=
  if value = 0 then ['0']
  else
    match units with
    | some UnitSystem.imperial => formatDecimalEnUS (round3 value)
    | _ => formatDecimalEnUS (round3 (value * IMPERIAL_METRIC_MULTIPLIER))

/-- Lookup `IMPERIAL_VULGAR_FRACTIONS[remainder.toString().substr(1)]`: on
the exact remainder `value - floor(value)` the decimal string is `".125"`,
`".25"`, ... precisely when the remainder equals the corresponding
rational, so the lookup is by rational value. -/
def vulgarGlyphOfRemainder (r : ℚ) : Option Char :=
  Option.map Prod.snd
    (([((1 : ℚ) / 8, '⅛'), (1 / 4, '¼'), (3 / 8, '⅜'), (1 / 2, '½'),
       (5 / 8, '⅝'), (3 / 4, '¾'), (7 / 8, '⅞')].find? fun e => decide (e.1 = r)))

/-- Model of `getImperialMeasurementWithVulgarFractions(value)`: when the
fractional remainder has a vulgar-fraction glyph, print the floor (omitted
when zero) followed by the glyph, otherwise fall back to the plain
locale-formatted value. -/
def getImperialMeasurementWithVulgarFractions (value : ℚ) : List Char :=
  match vulgarGlyphOfRemainder (value - ((⌊value⌋ : ℤ) : ℚ)) with
  | some fraction =>
    if (⌊value⌋ : ℤ) ≠ 0 then
      stringifyMeasurementValue ((⌊value⌋ : ℤ) : ℚ) (some UnitSystem.imperial) ++ [fraction]
    else [fraction]
  | none => stringifyMeasurementValue value (some UnitSystem.imperial)

/-- The `<wbr>` word-break marker inserted by the `markup` option. -/
def wbrMarker : List Char := ['<', 'w', 'b', 'r', '>']

/-- Model of `prettifyWidth(width, units, { markup })`: imperial renders the
vulgar-fraction form, optionally the marker, then the feet marker; metric
(also the default for a missing unit system) renders the converted value,
optionally the marker plus a space, then a space and `m`. -/
def prettifyWidth (width : ℚ) (units : Option UnitSystem) (markup : Bool) : List Char :=
  match units with
  | some UnitSystem.imperial =>
    (getImperialMeasurementWithVulgarFractions width ++ (if markup then wbrMarker else [])) ++
      [feetChar]
  | _ =>
    (stringifyMeasurementValue width (some UnitSystem.metric) ++
        (if markup then wbrMarker ++ [' '] else [])) ++ [' ', 'm']

/-! Character-class facts. -/

theorem isDigitChar_eq_true_iff {c : Char} :
    isDigitChar c = true ↔ 48 ≤ c.toNat ∧ c.toNat ≤ 57 := by
  simp [isDigitChar]

theorem isJsWhitespace_eq_false_of_isDigitChar {c : Char} (h : isDigitChar c = true) :
    isJsWhitespace c = false := by
  rw [isDigitChar_eq_true_iff] at h
  simp only [isJsWhitespace, Bool.or_eq_false_iff, decide_eq_false_iff_not]
  omega

theorem ne_char_of_isDigitChar {c x : Char} (h : isDigitChar c = true)
    (hx : isDigitChar x = false) : c ≠ x := by
  intro e
  rw [e, hx] at h
  cases h

theorem not_mem_of_all_isDigitChar {x : Char} {l : List Char}
    (hl : ∀ c ∈ l, isDigitChar c = true) (hx : isDigitChar x = false) : x ∉ l := by
  intro hm
  rw [hl x hm] at hx
  cases hx

/-! Value of digit strings. -/

theorem digitsToNat_go (a : ℕ) (l : List Char) :
    l.foldl (fun x c => 10 * x + digitVal c) a = a * 10 ^ l.length + digitsToNat l := by
  induction l generalizing a with
  | nil => simp [digitsToNat]
  | cons c t ih =>
    have hc : digitsToNat (c :: t) = digitVal c * 10 ^ t.length + digitsToNat t := by
      show List.foldl _ (10 * 0 + digitVal c) t = _
      rw [ih]
      simp
    show List.foldl _ (10 * a + digitVal c) t = _
    rw [ih, hc, List.length_cons]
    ring

theorem digitsToNat_append (l1 l2 : List Char) :
    digitsToNat (l1 ++ l2) = digitsToNat l1 * 10 ^ l2.length + digitsToNat l2 := by
  show List.foldl _ 0 _ = _
  rw [List.foldl_append]
  exact digitsToNat_go _ _

/-! Evaluation of `jsParseFloat` on digit strings with a trailing
non-numeric remainder. -/

theorem jsParseExponent_eq_zero {t : List Char}
    (h : ∀ c, t.head? = some c → c ≠ 'e' ∧ c ≠ 'E') : jsParseExponent t = 0 := by
  cases t with
  | nil => rfl
  | cons c r =>
    have hc := h c rfl
    simp [jsParseExponent, hc.1, hc.2]

theorem takeWhile_digits_stop {t : List Char}
    (ht : ∀ c, t.head? = some c → isDigitChar c = false) :
    t.takeWhile isDigitChar = [] := by
  cases t with
  | nil => rfl
  | cons c r => rw [List.takeWhile_cons_of_neg]; simp [ht c rfl]

theorem dropWhile_digits_stop {t : List Char}
    (ht : ∀ c, t.head? = some c → isDigitChar c = false) :
    t.dropWhile isDigitChar = t := by
  cases t with
  | nil => rfl
  | cons c r => rw [List.dropWhile_cons_of_neg]; simp [ht c rfl]

theorem floatIntDigits_spec (I t : List Char)
    (hI : ∀ c ∈ I, isDigitChar c = true)
    (ht : ∀ c, t.head? = some c → isDigitChar c = false) :
    floatIntDigits (I ++ t) = I := by
  rw [floatIntDigits, List.takeWhile_append_of_pos hI, takeWhile_digits_stop ht,
    List.append_nil]

theorem floatRest1_spec (I t : List Char)
    (hI : ∀ c ∈ I, isDigitChar c = true)
    (ht : ∀ c, t.head? = some c → isDigitChar c = false) :
    floatRest1 (I ++ t) = t := by
  rw [floatRest1, List.dropWhile_append_of_pos hI, dropWhile_digits_stop ht]

theorem jsParseFloatBody_int (I t : List Char)
    (hI : ∀ c ∈ I, isDigitChar c = true) (hne : I ≠ [])
    (ht : ∀ c, t.head? = some c → isDigitChar c = false ∧ c ≠ '.' ∧ c ≠ 'e' ∧ c ≠ 'E') :
    jsParseFloatBody (I ++ t) = some (digitsToNat I) := by
  have h1 : floatIntDigits (I ++ t) = I := floatIntDigits_spec I t hI fun c hc => (ht c hc).1
  have h2 : floatRest1 (I ++ t) = t := floatRest1_spec I t hI fun c hc => (ht c hc).1
  have h3 : floatFracDigits (I ++ t) = [] := by
    rw [floatFracDigits, h2]
    cases t with
    | nil => rfl
    | cons c r => simp [(ht c rfl).2.1]
  have h4 : floatRest2 (I ++ t) = t := by
    rw [floatRest2, h2]
    cases t with
    | nil => rfl
    | cons c r => simp [(ht c rfl).2.1]
  rw [jsParseFloatBody, h1, h3, h4]
  rw [if_neg (by simp [hne])]
  rw [jsParseExponent_eq_zero fun c hc => ⟨(ht c hc).2.2.1, (ht c hc).2.2.2⟩]
  norm_num [digitsToNat]

theorem jsParseFloatBody_frac (I F t : List Char)
    (hI : ∀ c ∈ I, isDigitChar c = true) (hF : ∀ c ∈ F, isDigitChar c = true) (hFne : F ≠ [])
    (ht : ∀ c, t.head? = some c → isDigitChar c = false ∧ c ≠ 'e' ∧ c ≠ 'E') :
    jsParseFloatBody (I ++ '.' :: (F ++ t)) =
      some ((digitsToNat I : ℚ) + (digitsToNat F : ℚ) / (10 : ℚ) ^ F.length) := by
  have hdot : ∀ c, ('.' :: (F ++ t)).head? = some c → isDigitChar c = false := by
    intro c hc
    simp only [List.head?_cons, Option.some.injEq] at hc
    rw [← hc]
    decide
  have h1 : floatIntDigits (I ++ '.' :: (F ++ t)) = I := floatIntDigits_spec I _ hI hdot
  have h2 : floatRest1 (I ++ '.' :: (F ++ t)) = '.' :: (F ++ t) := floatRest1_spec I _ hI hdot
  have h3 : floatFracDigits (I ++ '.' :: (F ++ t)) = F := by
    rw [floatFracDigits, h2]
    show (if ('.' : Char) = '.' then (F ++ t).takeWhile isDigitChar else []) = F
    rw [if_pos rfl, List.takeWhile_append_of_pos hF,
      takeWhile_digits_stop fun c hc => (ht c hc).1, List.append_nil]
  have h4 : floatRest2 (I ++ '.' :: (F ++ t)) = t := by
    rw [floatRest2, h2]
    show (if ('.' : Char) = '.' then (F ++ t).dropWhile isDigitChar else '.' :: (F ++ t)) = t
    rw [if_pos rfl, List.dropWhile_append_of_pos hF,
      dropWhile_digits_stop fun c hc => (ht c hc).1]
  rw [jsParseFloatBody, h1, h3, h4]
  rw [if_neg (by simp [List.isEmpty_iff, hFne])]
  rw [jsParseExponent_eq_zero fun c hc => ⟨(ht c hc).2.1, (ht c hc).2.2⟩]
  norm_num

theorem jsParseFloatSigned_noSign (s : List Char) (hne : s ≠ [])
    (h : ∀ c, s.head? = some c → c ≠ plusChar ∧ c ≠ minusChar) :
    jsParseFloatSigned s = jsParseFloatBody s := by
  cases s with
  | nil => cases hne rfl
  | cons c r =>
    have hc := h c rfl
    simp [jsParseFloatSigned, hc.1, hc.2]

theorem jsParseFloat_noWs (s : List Char)
    (h : ∀ c, s.head? = some c → isJsWhitespace c = false) :
    jsParseFloat s = jsParseFloatSigned s := by
  cases s with
  | nil => rfl
  | cons c r =>
    rw [jsParseFloat, List.dropWhile_cons_of_neg]
    simp [h c rfl]

theorem jsParseFloat_digitDotHead (s : List Char) (hne : s ≠ [])
    (h : ∀ c, s.head? = some c → isDigitChar c = true ∨ c = '.') :
    jsParseFloat s = jsParseFloatBody s := by
  have hws : ∀ c, s.head? = some c → isJsWhitespace c = false := by
    intro c hc
    rcases h c hc with hd | hd
    · exact isJsWhitespace_eq_false_of_isDigitChar hd
    · rw [hd]; decide
  have hsg : ∀ c, s.head? = some c → c ≠ plusChar ∧ c ≠ minusChar := by
    intro c hc
    rcases h c hc with hd | hd
    · exact ⟨ne_char_of_isDigitChar hd (by decide), ne_char_of_isDigitChar hd (by decide)⟩
    · rw [hd]; exact ⟨by decide, by decide⟩
  rw [jsParseFloat_noWs s hws, jsParseFloatSigned_noSign s hne hsg]

theorem jsParseFloat_int (I t : List Char)
    (hI : ∀ c ∈ I, isDigitChar c = true) (hne : I ≠ [])
    (ht : ∀ c, t.head? = some c → isDigitChar c = false ∧ c ≠ '.' ∧ c ≠ 'e' ∧ c ≠ 'E') :
    jsParseFloat (I ++ t) = some (digitsToNat I) := by
  rw [jsParseFloat_digitDotHead]
  · exact jsParseFloatBody_int I t hI hne ht
  · simp [hne]
  · intro c hc
    left
    obtain ⟨a, r, rfl⟩ := List.exists_cons_of_ne_nil hne
    simp only [List.cons_append, List.head?_cons, Option.some.injEq] at hc
    exact hc ▸ hI a (by simp)

theorem jsParseFloat_frac (I F t : List Char)
    (hI : ∀ c ∈ I, isDigitChar c = true) (hF : ∀ c ∈ F, isDigitChar c = true) (hFne : F ≠ [])
    (ht : ∀ c, t.head? = some c → isDigitChar c = false ∧ c ≠ 'e' ∧ c ≠ 'E') :
    jsParseFloat (I ++ '.' :: (F ++ t)) =
      some ((digitsToNat I : ℚ) + (digitsToNat F : ℚ) / (10 : ℚ) ^ F.length) := by
  rw [jsParseFloat_digitDotHead]
  · exact jsParseFloatBody_frac I F t hI hF hFne ht
  · simp
  · intro c hc
    cases I with
    | nil =>
      simp only [List.nil_append, List.head?_cons, Option.some.injEq] at hc
      right; exact hc.symm
    | cons a r =>
      simp only [List.cons_append, List.head?_cons, Option.some.injEq] at hc
      left; exact hc ▸ hI a (by simp)

/-! Evaluation of the suffix-table scan on a digit-and-period string followed
by the feet marker. -/

theorem beq_eq_false_of_isDigitChar {x c : Char} (hx : isDigitChar x = false)
    (hc : isDigitChar c = true) : (x == c) = false := by
  rw [beq_eq_false_iff_ne]
  exact (ne_char_of_isDigitChar hc hx).symm

theorem findSuffixMultiplier_feet (D : List Char) (hne : D ≠ [])
    (hlast : isDigitChar (D.getLast hne) = true) :
    findSuffixMultiplier (D ++ [feetChar]) = some 1 := by
  have hrev : (D ++ [feetChar]).reverse = feetChar :: (D.getLast hne :: D.dropLast.reverse) := by
    rw [List.reverse_concat]
    congr 1
    conv_lhs => rw [← List.dropLast_concat_getLast hne]
    rw [List.reverse_concat]
  have hnL : ('n' == D.getLast hne) = false := beq_eq_false_of_isDigitChar (by decide) hlast
  have htL : ('t' == D.getLast hne) = false := beq_eq_false_of_isDigitChar (by decide) hlast
  have em : regexTailMatches ['m'] (D ++ [feetChar]) = false := by
    rw [regexTailMatches, hrev]
    show (jsPatCharMatches 'm' feetChar && _) = false
    rw [show jsPatCharMatches 'm' feetChar = false from by decide, Bool.false_and]
  have ecm : regexTailMatches ['c', 'm'] (D ++ [feetChar]) = false := by
    rw [regexTailMatches, hrev]
    show (jsPatCharMatches 'm' feetChar && _) = false
    rw [show jsPatCharMatches 'm' feetChar = false from by decide, Bool.false_and]
  have einch2 : regexTailMatches [inchChar] (D ++ [feetChar]) = false := by
    rw [regexTailMatches, hrev]
    show (jsPatCharMatches inchChar feetChar && _) = false
    rw [show jsPatCharMatches inchChar feetChar = false from by decide, Bool.false_and]
  have ein : regexTailMatches ['i', 'n'] (D ++ [feetChar]) = false := by
    rw [regexTailMatches, hrev]
    show (jsPatCharMatches 'n' feetChar && _) = false
    rw [show jsPatCharMatches 'n' feetChar = false from by decide, Bool.false_and]
  have eindot : regexTailMatches ['i', 'n', '.'] (D ++ [feetChar]) = false := by
    rw [regexTailMatches, hrev]
    show (jsPatCharMatches '.' feetChar &&
      (jsPatCharMatches 'n' (D.getLast hne) && _)) = false
    rw [show jsPatCharMatches 'n' (D.getLast hne) = ('n' == D.getLast hne) from by
      rw [jsPatCharMatches, if_neg (by decide)], hnL]
    simp
  have einch : regexTailMatches ['i', 'n', 'c', 'h'] (D ++ [feetChar]) = false := by
    rw [regexTailMatches, hrev]
    show (jsPatCharMatches 'h' feetChar && _) = false
    rw [show jsPatCharMatches 'h' feetChar = false from by decide, Bool.false_and]
  have einches : regexTailMatches ['i', 'n', 'c', 'h', 'e', 's'] (D ++ [feetChar]) = false := by
    rw [regexTailMatches, hrev]
    show (jsPatCharMatches 's' feetChar && _) = false
    rw [show jsPatCharMatches 's' feetChar = false from by decide, Bool.false_and]
  have efeet : regexTailMatches [feetChar] (D ++ [feetChar]) = true := by
    rw [regexTailMatches, hrev]
    show (jsPatCharMatches feetChar feetChar && (isDigitChar (D.getLast hne) || _)) = true
    rw [show jsPatCharMatches feetChar feetChar = true from by decide, hlast]
    simp
  rw [findSuffixMultiplier, WIDTH_INPUT_CONVERSION]
  rw [List.find?_cons_of_neg _ (by simp [em]),
    List.find?_cons_of_neg _ (by simp [ecm]),
    List.find?_cons_of_neg _ (by simp [einch2]),
    List.find?_cons_of_neg _ (by simp [ein]),
    List.find?_cons_of_neg _ (by simp [eindot]),
    List.find?_cons_of_neg _ (by simp [einch]),
    List.find?_cons_of_neg _ (by simp [einches]),
    List.find?_cons_of_pos _ (by simp [efeet])]
  rfl

/-! Evaluation of `parseStringForUnits` on plain numeric strings with the
feet marker. -/

theorem parseStringForUnits_of_parse_none (w : List Char) (u : Option UnitSystem)
    (h : jsParseFloat (dashStripped w) = none) : parseStringForUnits w u = 0 := by
  rw [parseStringForUnits, h]

theorem parseStringForUnits_of_parse_some (w : List Char) (u : Option UnitSystem) (q : ℚ)
    (h : jsParseFloat (dashStripped w) = some q) :
    parseStringForUnits w u =
      if q = 0 then 0
      else q * (findSuffixMultiplier (dashStripped w)).getD (defaultMultiplier u) := by
  rw [parseStringForUnits, h]

theorem dashStripped_eq_self {s : List Char} (h : minusChar ∉ s) : dashStripped s = s := by
  rw [dashStripped, List.filter_eq_self]
  intro a ha
  have hne : a ≠ minusChar := fun e => h (e ▸ ha)
  simp [hne]

theorem parseStringForUnits_intFeet (I : List Char) (u : Option UnitSystem)
    (hI : ∀ c ∈ I, isDigitChar c = true) (hne : I ≠ []) :
    parseStringForUnits (I ++ [feetChar]) u = (digitsToNat I : ℚ) := by
  have hm : minusChar ∉ I ++ [feetChar] := by
    intro hmem
    rcases List.mem_append.mp hmem with h1 | h1
    · exact not_mem_of_all_isDigitChar hI (by decide) h1
    · simp only [List.mem_singleton] at h1
      exact absurd h1 (by decide)
  have hd : dashStripped (I ++ [feetChar]) = I ++ [feetChar] := dashStripped_eq_self hm
  have hfeet : ∀ c, ([feetChar] : List Char).head? = some c →
      isDigitChar c = false ∧ c ≠ '.' ∧ c ≠ 'e' ∧ c ≠ 'E' := by
    intro c hc
    simp only [List.head?_cons, Option.some.injEq] at hc
    subst hc
    refine ⟨by decide, by decide, by decide, by decide⟩
  rw [parseStringForUnits_of_parse_some _ u (digitsToNat I)
    (by rw [hd]; exact jsParseFloat_int I [feetChar] hI hne hfeet)]
  by_cases h0 : (digitsToNat I : ℚ) = 0
  · rw [if_pos h0, h0]
  · rw [if_neg h0, hd,
      findSuffixMultiplier_feet I hne (hI _ (List.getLast_mem hne))]
    simp

theorem parseStringForUnits_fracFeet (I F : List Char) (u : Option UnitSystem)
    (hI : ∀ c ∈ I, isDigitChar c = true) (hF : ∀ c ∈ F, isDigitChar c = true) (hFne : F ≠ []) :
    parseStringForUnits ((I ++ '.' :: F) ++ [feetChar]) u =
      (digitsToNat I : ℚ) + (digitsToNat F : ℚ) / (10 : ℚ) ^ F.length := by
  have hm : minusChar ∉ (I ++ '.' :: F) ++ [feetChar] := by
    intro hmem
    rcases List.mem_append.mp hmem with h1 | h1
    · rcases List.mem_append.mp h1 with h2 | h2
      · exact not_mem_of_all_isDigitChar hI (by decide) h2
      · rcases List.mem_cons.mp h2 with h3 | h3
        · exact absurd h3 (by decide)
        · exact not_mem_of_all_isDigitChar hF (by decide) h3
    · simp only [List.mem_singleton] at h1
      exact absurd h1 (by decide)
  have hd : dashStripped ((I ++ '.' :: F) ++ [feetChar]) = (I ++ '.' :: F) ++ [feetChar] :=
    dashStripped_eq_self hm
  have hfeet : ∀ c, ([feetChar] : List Char).head? = some c →
      isDigitChar c = false ∧ c ≠ 'e' ∧ c ≠ 'E' := by
    intro c hc
    simp only [List.head?_cons, Option.some.injEq] at hc
    subst hc
    refine ⟨by decide, by decide, by decide⟩
  have hassoc : (I ++ '.' :: F) ++ [feetChar] = I ++ '.' :: (F ++ [feetChar]) := by simp
  have hDne : I ++ '.' :: F ≠ [] := by simp
  have hlast : isDigitChar ((I ++ '.' :: F).getLast hDne) = true := by
    rw [List.getLast_append_of_ne_nil (List.cons_ne_nil _ _),
      List.getLast_cons hFne]
    exact hF _ (List.getLast_mem hFne)
  rw [parseStringForUnits_of_parse_some _ u _
    (by rw [hd, hassoc]; exact jsParseFloat_frac I F [feetChar] hI hF hFne hfeet)]
  by_cases h0 : (digitsToNat I : ℚ) + (digitsToNat F : ℚ) / (10 : ℚ) ^ F.length = 0
  · rw [if_pos h0, h0]
  · rw [if_neg h0, hd, findSuffixMultiplier_feet _ hDne hlast]
    simp

/-! Normalization no-ops. -/

theorem removeSpaces_eq_self {s : List Char} (h : ∀ c ∈ s, c ≠ ' ') : removeSpaces s = s := by
  rw [removeSpaces, List.filter_eq_self]
  intro a ha
  simp [h a ha]

theorem commasToPeriods_eq_self {s : List Char} (h : ∀ c ∈ s, c ≠ ',') : commasToPeriods s = s := by
  induction s with
  | nil => rfl
  | cons c t ih =>
    simp only [commasToPeriods, List.map_cons] at *
    rw [if_neg (h c (by simp)), ih fun x hx => h x (by simp [hx])]

theorem replaceFirst_of_not_mem {g : Char} {r l : List Char} (h : g ∉ l) :
    replaceFirst g r l = l := by
  induction l with
  | nil => rfl
  | cons c t ih =>
    have hc : c ≠ g := fun e => h (e ▸ List.mem_cons_self c t)
    simp only [replaceFirst, if_neg hc]
    rw [ih fun hm => h (List.mem_cons_of_mem c hm)]

theorem mem_replaceFirst {x g : Char} {r l : List Char} (h : x ∈ replaceFirst g r l) :
    x ∈ r ∨ x ∈ l := by
  induction l with
  | nil => simp [replaceFirst] at h
  | cons c t ih =>
    simp only [replaceFirst] at h
    by_cases hc : c = g
    · rw [if_pos hc] at h
      rcases List.mem_append.mp h with h1 | h1
      · exact Or.inl h1
      · exact Or.inr (List.mem_cons_of_mem c h1)
    · rw [if_neg hc] at h
      rcases List.mem_cons.mp h with h1 | h1
      · exact Or.inr (h1 ▸ List.mem_cons_self c t)
      · rcases ih h1 with h2 | h2
        · exact Or.inl h2
        · exact Or.inr (List.mem_cons_of_mem c h2)

theorem not_mem_replaceFirst {x g : Char} {r l : List Char} (hl : x ∉ l) (hr : x ∉ r) :
    x ∉ replaceFirst g r l := fun h => (mem_replaceFirst h).elim hr hl

theorem replaceFirst_append_cons {g : Char} {r : List Char} (N t : List Char) (hN : g ∉ N) :
    replaceFirst g r (N ++ g :: t) = (N ++ r) ++ t := by
  induction N with
  | nil =>
    simp [replaceFirst]
  | cons c M ih =>
    have hc : c ≠ g := fun e => hN (e ▸ List.mem_cons_self c M)
    simp only [List.cons_append, replaceFirst, if_neg hc, List.append_eq]
    rw [ih fun hm => hN (List.mem_cons_of_mem c hm)]

theorem count_replaceFirst_le (x g : Char) (r l : List Char) (hx : x ∉ r) :
    (replaceFirst g r l).count x ≤ l.count x := by
  induction l with
  | nil => simp [replaceFirst]
  | cons c t ih =>
    simp only [replaceFirst]
    by_cases hc : c = g
    · rw [if_pos hc, List.count_append]
      have hz : r.count x = 0 := List.count_eq_zero.mpr hx
      simp only [hz, List.count_cons]
      omega
    · rw [if_neg hc]
      simp only [List.count_cons]
      omega

theorem not_mem_replaceFirst_self {g : Char} {r l : List Char}
    (hcount : l.count g ≤ 1) (hg : g ∉ r) : g ∉ replaceFirst g r l := by
  induction l with
  | nil => simp [replaceFirst]
  | cons c t ih =>
    simp only [replaceFirst]
    by_cases hc : c = g
    · rw [if_pos hc]
      intro hm
      rcases List.mem_append.mp hm with h1 | h1
      · exact hg h1
      · have : t.count g = 0 := by
          rw [hc] at hcount
          simp [List.count_cons] at hcount
          omega
        exact absurd (List.count_pos_iff.mpr h1) (by omega)
    · rw [if_neg hc]
      intro hm
      rcases List.mem_cons.mp hm with h1 | h1
      · exact hc h1.symm
      · have hct : t.count g ≤ 1 := by
          have := List.count_cons g c t
          omega
        exact ih hct h1

theorem replaceVulgarFractions_eq_self {s : List Char}
    (h : ∀ e ∈ IMPERIAL_VULGAR_FRACTIONS, e.2 ∉ s) : replaceVulgarFractions s = s := by
  have h1 := h _ (show ((['.', '1', '2', '5'], '⅛') : List Char × Char) ∈ IMPERIAL_VULGAR_FRACTIONS by
    simp [IMPERIAL_VULGAR_FRACTIONS])
  have h2 := h _ (show ((['.', '2', '5'], '¼') : List Char × Char) ∈ IMPERIAL_VULGAR_FRACTIONS by
    simp [IMPERIAL_VULGAR_FRACTIONS])
  have h3 := h _ (show ((['.', '3', '7', '5'], '⅜') : List Char × Char) ∈ IMPERIAL_VULGAR_FRACTIONS by
    simp [IMPERIAL_VULGAR_FRACTIONS])
  have h4 := h _ (show ((['.', '5'], '½') : List Char × Char) ∈ IMPERIAL_VULGAR_FRACTIONS by
    simp [IMPERIAL_VULGAR_FRACTIONS])
  have h5 := h _ (show ((['.', '6', '2', '5'], '⅝') : List Char × Char) ∈ IMPERIAL_VULGAR_FRACTIONS by
    simp [IMPERIAL_VULGAR_FRACTIONS])
  have h6 := h _ (show ((['.', '7', '5'], '¾') : List Char × Char) ∈ IMPERIAL_VULGAR_FRACTIONS by
    simp [IMPERIAL_VULGAR_FRACTIONS])
  have h7 := h _ (show ((['.', '8', '7', '5'], '⅞') : List Char × Char) ∈ IMPERIAL_VULGAR_FRACTIONS by
    simp [IMPERIAL_VULGAR_FRACTIONS])
  simp only [replaceVulgarFractions, IMPERIAL_VULGAR_FRACTIONS, List.foldl_cons, List.foldl_nil]
  rw [replaceFirst_of_not_mem h1, replaceFirst_of_not_mem h2, replaceFirst_of_not_mem h3,
    replaceFirst_of_not_mem h4, replaceFirst_of_not_mem h5, replaceFirst_of_not_mem h6,
    replaceFirst_of_not_mem h7]

/-! `processWidthInput` branch selection. -/

theorem processWidthInput_single (w w2 : List Char) (u : UnitSystem) (hne : w ≠ [])
    (hw2 : replaceVulgarFractions (commasToPeriods (removeSpaces w)) = w2)
    (hq : feetChar ∉ w2.dropLast) :
    processWidthInput (some w) (some u) = some (parseStringForUnits w2 (some u)) := by
  simp only [processWidthInput]
  rw [if_neg (by simp [hne]), hw2, if_neg hq]

theorem processWidthInput_compound (w w2 : List Char) (u : UnitSystem) (hne : w ≠ [])
    (hw2 : replaceVulgarFractions (commasToPeriods (removeSpaces w)) = w2)
    (hq : feetChar ∈ w2.dropLast) :
    processWidthInput (some w) (some u) = some (processCompound w2 u) := by
  simp only [processWidthInput]
  rw [if_neg (by simp [hne]), hw2, if_pos hq]

/-! `splitOnChar` and the compound branch. -/

theorem splitOnChar_of_not_mem {sep : Char} {l : List Char} (h : sep ∉ l) :
    splitOnChar sep l = [l] := by
  induction l with
  | nil => rfl
  | cons c t ih =>
    have hc : c ≠ sep := fun e => h (e ▸ List.mem_cons_self c t)
    simp only [splitOnChar, if_neg hc]
    rw [ih fun hm => h (List.mem_cons_of_mem c hm)]

theorem splitOnChar_append_cons {sep : Char} (A B : List Char) (hA : sep ∉ A) (hB : sep ∉ B) :
    splitOnChar sep (A ++ sep :: B) = [A, B] := by
  induction A with
  | nil =>
    simp only [List.nil_append, splitOnChar, if_pos rfl]
    rw [splitOnChar_of_not_mem hB]
    simp [splitOnChar]
  | cons c M ih =>
    have hc : c ≠ sep := fun e => hA (e ▸ List.mem_cons_self c M)
    simp only [List.cons_append, splitOnChar, if_neg hc, List.append_eq]
    rw [ih fun hm => hA (List.mem_cons_of_mem c hm)]

theorem processCompound_two (A B : List Char) (u : UnitSystem)
    (hA : feetChar ∉ A) (hB : feetChar ∉ B) :
    processCompound (A ++ feetChar :: B) u =
      parseStringForUnits (A ++ [feetChar]) none +
        parseStringForUnits (ensureInches B) (some u) := by
  unfold processCompound
  rw [splitOnChar_append_cons A B hA hB]
  rfl

/-! Nonnegativity of every parse result. -/

theorem jsParseFloatBody_nonneg (s : List Char) (q : ℚ) (h : jsParseFloatBody s = some q) :
    0 ≤ q := by
  by_cases hc : ((floatIntDigits s).isEmpty && (floatFracDigits s).isEmpty) = true
  · rw [jsParseFloatBody, if_pos hc] at h
    cases h
  · rw [jsParseFloatBody, if_neg hc] at h
    injection h with h
    rw [← h]
    positivity

theorem jsParseFloatSigned_nonneg (s : List Char) (q : ℚ) (hm : minusChar ∉ s)
    (h : jsParseFloatSigned s = some q) : 0 ≤ q := by
  cases s with
  | nil => cases h
  | cons c r =>
    simp only [jsParseFloatSigned] at h
    by_cases hp : c = plusChar
    · rw [if_pos hp] at h
      exact jsParseFloatBody_nonneg _ _ h
    · have hmn : c ≠ minusChar := fun e => hm (e ▸ List.mem_cons_self c r)
      rw [if_neg hp, if_neg hmn] at h
      exact jsParseFloatBody_nonneg _ _ h

theorem jsParseFloat_nonneg (s : List Char) (q : ℚ) (hm : minusChar ∉ s)
    (h : jsParseFloat s = some q) : 0 ≤ q := by
  rw [jsParseFloat] at h
  refine jsParseFloatSigned_nonneg _ _ (fun hmem => hm ?_) h
  exact (List.dropWhile_sublist _).subset hmem

theorem minusChar_not_mem_dashStripped (w : List Char) : minusChar ∉ dashStripped w := by
  intro h
  rw [dashStripped, List.mem_filter] at h
  simp at h

theorem findSuffixMultiplier_pos (w : List Char) (m : ℚ)
    (h : findSuffixMultiplier w = some m) : 0 < m := by
  rw [findSuffixMultiplier] at h
  obtain ⟨e, he, hm2⟩ := Option.map_eq_some'.mp h
  have hmem := List.mem_of_find?_eq_some he
  rw [← hm2]
  fin_cases hmem <;> norm_num [IMPERIAL_METRIC_MULTIPLIER]

theorem defaultMultiplier_pos (u : Option UnitSystem) : 0 < defaultMultiplier u := by
  rw [defaultMultiplier]
  split <;> norm_num [IMPERIAL_METRIC_MULTIPLIER]

theorem parseStringForUnits_nonneg (w : List Char) (u : Option UnitSystem) :
    0 ≤ parseStringForUnits w u := by
  cases hq : jsParseFloat (dashStripped w) with
  | none => rw [parseStringForUnits_of_parse_none _ _ hq]
  | some q =>
    rw [parseStringForUnits_of_parse_some _ _ _ hq]
    by_cases h0 : q = 0
    · rw [if_pos h0]
    · rw [if_neg h0]
      have hqn : 0 ≤ q := jsParseFloat_nonneg _ _ (minusChar_not_mem_dashStripped w) hq
      have hmul : 0 < (findSuffixMultiplier (dashStripped w)).getD (defaultMultiplier u) := by
        cases hf : findSuffixMultiplier (dashStripped w) with
        | none => simpa using defaultMultiplier_pos u
        | some m => simpa using findSuffixMultiplier_pos _ m hf
      exact mul_nonneg hqn hmul.le

theorem parseNumberString_nonneg (x : ℚ) (h : 0 ≤ x) : 0 ≤ parseNumberString x := by
  rw [parseNumberString]
  split
  · exact le_refl 0
  · exact h

theorem foldl_compound_nonneg (u : UnitSystem) (init : ℚ) (h : 0 ≤ init) (l : List (List Char)) :
    0 ≤ List.foldl
      (fun acc cur => parseNumberString acc + parseStringForUnits (ensureInches cur) (some u))
      init l := by
  induction l generalizing init with
  | nil => exact h
  | cons c t ih =>
    exact ih _ (add_nonneg (parseNumberString_nonneg _ h) (parseStringForUnits_nonneg _ _))

theorem processCompound_nonneg (w : List Char) (u : UnitSystem) : 0 ≤ processCompound w u := by
  unfold processCompound
  split
  · exact le_refl 0
  · split
    · exact le_refl 0
    · exact foldl_compound_nonneg u _
        (add_nonneg (parseStringForUnits_nonneg _ _) (parseStringForUnits_nonneg _ _)) _

/-! Comma normalization commutes with the other normalization steps. -/

theorem removeSpaces_commasToPeriods (s : List Char) :
    removeSpaces (commasToPeriods s) = commasToPeriods (removeSpaces s) := by
  simp only [removeSpaces, commasToPeriods, List.filter_map]
  congr 1
  apply List.filter_congr
  intro a _
  by_cases ha : a = ','
  · subst ha; rfl
  · simp [ha]

theorem commasToPeriods_idem (s : List Char) :
    commasToPeriods (commasToPeriods s) = commasToPeriods s := by
  simp only [commasToPeriods, List.map_map]
  apply List.map_congr_left
  intro a _
  by_cases ha : a = ','
  · subst ha; rfl
  · simp [ha, Function.comp]

/-! Vulgar-fraction glyphs that appear at most once are all replaced. -/

theorem not_mem_foldl_replace {x : Char} (L : List (List Char × Char)) (w : List Char)
    (hx : x ∉ w) (hL : ∀ e ∈ L, x ∉ e.1) :
    x ∉ L.foldl (fun acc e => replaceFirst e.2 e.1 acc) w := by
  induction L generalizing w with
  | nil => exact hx
  | cons e T ih =>
    simp only [List.foldl_cons]
    apply ih
    · exact not_mem_replaceFirst hx (hL e (by simp))
    · intro f hf
      exact hL f (by simp [hf])

theorem foldl_replace_all_gone (L : List (List Char × Char)) (w : List Char)
    (hcnt : ∀ e ∈ L, w.count e.2 ≤ 1)
    (hrep : ∀ e ∈ L, ∀ f ∈ L, e.2 ∉ f.1) :
    ∀ e ∈ L, e.2 ∉ L.foldl (fun acc f => replaceFirst f.2 f.1 acc) w := by
  induction L generalizing w with
  | nil => intro e he; cases he
  | cons f T ih =>
    intro e he
    simp only [List.foldl_cons]
    rcases List.mem_cons.mp he with he1 | he1
    · subst he1
      apply not_mem_foldl_replace
      · exact not_mem_replaceFirst_self (hcnt e (by simp)) (hrep e (by simp) e (by simp))
      · intro g hg
        exact hrep e (by simp) g (by simp [hg])
    · refine ih _ ?_ ?_ e he1
      · intro g hg
        calc ((replaceFirst f.2 f.1 w).count g.2)
            ≤ w.count g.2 := count_replaceFirst_le _ _ _ _ (hrep g (by simp [hg]) f (by simp))
          _ ≤ 1 := hcnt g (by simp [hg])
      · intro g hg g2 hg2
        exact hrep g (by simp [hg]) g2 (by simp [hg2])

/-! Decimal digit strings produced by the formatter. -/

theorem digitChar_isDigit (k : ℕ) : isDigitChar (digitChar k) = true := by
  have h : k % 10 < 10 := Nat.mod_lt _ (by norm_num)
  rw [digitChar]
  revert h
  generalize k % 10 = r
  intro h
  interval_cases r <;> decide

theorem digitVal_digitChar (k : ℕ) : digitVal (digitChar k) = k % 10 := by
  have h : k % 10 < 10 := Nat.mod_lt _ (by norm_num)
  rw [digitChar]
  revert h
  generalize k % 10 = r
  intro h
  interval_cases r <;> decide

theorem digitChar_eq_zero_iff (k : ℕ) : digitChar k = '0' ↔ k % 10 = 0 := by
  have h : k % 10 < 10 := Nat.mod_lt _ (by norm_num)
  rw [digitChar]
  revert h
  generalize k % 10 = r
  intro h
  interval_cases r <;> simp

theorem natToDigitsRevAux_digits (fuel n : ℕ) :
    ∀ c ∈ natToDigitsRevAux fuel n, isDigitChar c = true := by
  induction fuel generalizing n with
  | zero => intro c hc; cases hc
  | succ fuel ih =>
    intro c hc
    rw [natToDigitsRevAux] at hc
    by_cases h10 : n < 10
    · rw [if_pos h10] at hc
      simp only [List.mem_singleton] at hc
      rw [hc]
      exact digitChar_isDigit n
    · rw [if_neg h10] at hc
      rcases List.mem_cons.mp hc with h | h
      · rw [h]
        exact digitChar_isDigit _
      · exact ih _ c h

theorem natToDigitsRevAux_ne_nil (fuel n : ℕ) : natToDigitsRevAux (fuel + 1) n ≠ [] := by
  rw [natToDigitsRevAux]
  split <;> simp

theorem digitsToNat_natToDigitsRevAux (fuel n : ℕ) (h : n < fuel) :
    digitsToNat ((natToDigitsRevAux fuel n).reverse) = n := by
  induction fuel generalizing n with
  | zero => omega
  | succ fuel ih =>
    rw [natToDigitsRevAux]
    by_cases h10 : n < 10
    · rw [if_pos h10]
      simp only [List.reverse_singleton]
      show 10 * 0 + digitVal (digitChar n) = n
      rw [digitVal_digitChar]
      omega
    · rw [if_neg h10]
      rw [List.reverse_cons, digitsToNat_append, ih (n / 10) (by omega)]
      simp only [List.length_singleton, pow_one]
      have hd : digitsToNat [digitChar (n % 10)] = n % 10 := by
        show 10 * 0 + digitVal (digitChar (n % 10)) = n % 10
        rw [digitVal_digitChar]
        omega
      rw [hd]
      omega

theorem natToDigitsRevAux_length (fuel k n : ℕ) (hf : n < fuel) (hk : 1 ≤ k)
    (h : n < 10 ^ k) : (natToDigitsRevAux fuel n).length ≤ k := by
  induction fuel generalizing n k with
  | zero => omega
  | succ fuel ih =>
    rw [natToDigitsRevAux]
    by_cases h10 : n < 10
    · rw [if_pos h10]
      simpa using hk
    · rw [if_neg h10]
      simp only [List.length_cons]
      have hk2 : 2 ≤ k := by
        rcases Nat.lt_or_ge k 2 with hlt | hge
        · exfalso
          have hk1 : k = 1 := by omega
          rw [hk1, pow_one] at h
          omega
        · exact hge
      have hdiv : n / 10 < 10 ^ (k - 1) := by
        rw [Nat.div_lt_iff_lt_mul (by norm_num)]
        have : 10 ^ (k - 1) * 10 = 10 ^ k := by
          rw [← pow_succ]
          congr 1
          omega
        omega
      have := ih (k - 1) (n / 10) (by omega) (by omega) hdiv
      omega

theorem natToDigits_val (n : ℕ) : digitsToNat (natToDigits n) = n :=
  digitsToNat_natToDigitsRevAux (n + 1) n (by omega)

theorem natToDigits_digits (n : ℕ) : ∀ c ∈ natToDigits n, isDigitChar c = true := by
  intro c hc
  rw [natToDigits, List.mem_reverse] at hc
  exact natToDigitsRevAux_digits _ _ c hc

theorem natToDigits_ne_nil (n : ℕ) : natToDigits n ≠ [] := by
  rw [natToDigits]
  simp only [ne_eq, List.reverse_eq_nil_iff]
  exact natToDigitsRevAux_ne_nil n n

theorem natToDigits_length_le (n k : ℕ) (hk : 1 ≤ k) (h : n < 10 ^ k) :
    (natToDigits n).length ≤ k := by
  rw [natToDigits, List.length_reverse]
  exact natToDigitsRevAux_length (n + 1) k n (by omega) hk h

/-! Thousands grouping. -/

theorem groupRev_eq_self (l : List Char) (h : l.length ≤ 3) : groupRev l = l := by
  match l with
  | [] => rfl
  | [a] => rfl
  | [a, b] => rfl
  | [a, b, c] => rfl
  | a :: b :: c :: d :: r => simp at h

theorem groupThousands_eq_self (ds : List Char) (h : ds.length ≤ 3) :
    groupThousands ds = ds := by
  rw [groupThousands, groupRev_eq_self _ (by simpa using h), List.reverse_reverse]

theorem mem_groupRev (l : List Char) : ∀ c ∈ groupRev l, c ∈ l ∨ c = ',' := by
  generalize hn : l.length = n
  induction n using Nat.strong_induction_on generalizing l with
  | _ n ih =>
    match l with
    | [] => intro c hc; cases hc
    | [a] => intro c hc; exact Or.inl hc
    | [a, b] => intro c hc; exact Or.inl hc
    | [a, b, c0] => intro c hc; exact Or.inl hc
    | a :: b :: c0 :: d :: r =>
      intro c hc
      have hrec := ih (d :: r).length
        (by simp only [List.length_cons] at hn ⊢; omega) (d :: r) rfl
      show c ∈ a :: b :: c0 :: d :: r ∨ c = ','
      have : groupRev (a :: b :: c0 :: d :: r) = a :: b :: c0 :: ',' :: groupRev (d :: r) := rfl
      rw [this] at hc
      rcases List.mem_cons.mp hc with h1 | h1
      · exact Or.inl (by simp [h1])
      · rcases List.mem_cons.mp h1 with h2 | h2
        · exact Or.inl (by simp [h2])
        · rcases List.mem_cons.mp h2 with h3 | h3
          · exact Or.inl (by simp [h3])
          · rcases List.mem_cons.mp h3 with h4 | h4
            · exact Or.inr h4
            · rcases hrec c h4 with h5 | h5
              · exact Or.inl (by simp [List.mem_cons.mp h5, List.mem_cons])
              · exact Or.inr h5

theorem mem_groupThousands (ds : List Char) :
    ∀ c ∈ groupThousands ds, c ∈ ds ∨ c = ',' := by
  intro c hc
  rw [groupThousands, List.mem_reverse] at hc
  rcases mem_groupRev _ c hc with h | h
  · exact Or.inl (List.mem_reverse.mp h)
  · exact Or.inr h

/-! The three fraction digits and trailing-zero stripping. -/

theorem digits3_digits (m : ℕ) : ∀ c ∈ digits3 m, isDigitChar c = true := by
  intro c hc
  rw [digits3] at hc
  rcases List.mem_cons.mp hc with h | h
  · rw [h]; exact digitChar_isDigit _
  · rcases List.mem_cons.mp h with h2 | h2
    · rw [h2]; exact digitChar_isDigit _
    · rcases List.mem_cons.mp h2 with h3 | h3
      · rw [h3]; exact digitChar_isDigit _
      · cases h3

theorem digitsToNat_digits3 (m : ℕ) (h : m < 1000) : digitsToNat (digits3 m) = m := by
  show 10 * (10 * (10 * 0 + digitVal (digitChar (m / 100))) + digitVal (digitChar (m / 10 % 10)))
      + digitVal (digitChar (m % 10)) = m
  rw [digitVal_digitChar, digitVal_digitChar, digitVal_digitChar]
  omega

theorem mem_stripTrailingZeros (l : List Char) :
    ∀ c ∈ stripTrailingZeros l, c ∈ l := by
  intro c hc
  rw [stripTrailingZeros, List.mem_reverse] at hc
  exact List.mem_reverse.mp ((List.dropWhile_sublist _).subset hc)

theorem stripTrailingZeros_spec (m : ℕ) (h1 : m < 1000) (h0 : m ≠ 0) :
    stripTrailingZeros (digits3 m) ≠ [] ∧
      (∀ c ∈ stripTrailingZeros (digits3 m), isDigitChar c = true) ∧
      (digitsToNat (stripTrailingZeros (digits3 m)) : ℚ) /
          (10 : ℚ) ^ (stripTrailingZeros (digits3 m)).length = (m : ℚ) / 1000 := by
  have hmem : ∀ c ∈ stripTrailingZeros (digits3 m), isDigitChar c = true :=
    fun c hc => digits3_digits m c (mem_stripTrailingZeros _ c hc)
  have hrev : (digits3 m).reverse =
      [digitChar (m % 10), digitChar (m / 10 % 10), digitChar (m / 100)] := by
    rw [digits3]
    rfl
  by_cases hz : m % 10 = 0
  · by_cases hy : m / 10 % 10 = 0
    · -- only the hundreds digit survives
      have hx : m / 100 % 10 ≠ 0 := by omega
      have hstrip : stripTrailingZeros (digits3 m) = [digitChar (m / 100)] := by
        rw [stripTrailingZeros, hrev]
        rw [List.dropWhile_cons_of_pos
            (by simp only [beq_iff_eq]; exact (digitChar_eq_zero_iff _).mpr (by omega)),
          List.dropWhile_cons_of_pos
            (by simp only [beq_iff_eq]; exact (digitChar_eq_zero_iff _).mpr (by omega)),
          List.dropWhile_cons_of_neg
            (by simp only [beq_iff_eq]; intro e; have h3 := (digitChar_eq_zero_iff _).mp e; omega)]
        rfl
      refine ⟨by rw [hstrip]; simp, hmem, ?_⟩
      rw [hstrip]
      have hval : digitsToNat [digitChar (m / 100)] = m / 100 := by
        show 10 * 0 + digitVal (digitChar (m / 100)) = m / 100
        rw [digitVal_digitChar]
        omega
      rw [hval]
      have hdvd : 100 ∣ m := Nat.dvd_of_mod_eq_zero (by omega)
      rw [List.length_singleton, pow_one, Nat.cast_div hdvd (by norm_num), div_div]
      norm_num
    · -- tens and hundreds digits survive
      have hstrip : stripTrailingZeros (digits3 m) =
          [digitChar (m / 100), digitChar (m / 10 % 10)] := by
        rw [stripTrailingZeros, hrev]
        rw [List.dropWhile_cons_of_pos
            (by simp only [beq_iff_eq]; exact (digitChar_eq_zero_iff _).mpr (by omega)),
          List.dropWhile_cons_of_neg
            (by simp only [beq_iff_eq]; intro e; have h3 := (digitChar_eq_zero_iff _).mp e; omega)]
        rfl
      refine ⟨by rw [hstrip]; simp, hmem, ?_⟩
      rw [hstrip]
      have hval : digitsToNat [digitChar (m / 100), digitChar (m / 10 % 10)] = m / 10 := by
        show 10 * (10 * 0 + digitVal (digitChar (m / 100))) + digitVal (digitChar (m / 10 % 10)) = m / 10
        rw [digitVal_digitChar, digitVal_digitChar]
        omega
      rw [hval]
      have hdvd : 10 ∣ m := Nat.dvd_of_mod_eq_zero (by omega)
      rw [List.length_cons, List.length_singleton, Nat.cast_div hdvd (by norm_num)]
      rw [show ((10 : ℚ) ^ (1 + 1)) = 100 by norm_num, div_div]
      norm_num
  · -- all three digits survive
    have hstrip : stripTrailingZeros (digits3 m) = digits3 m := by
      rw [stripTrailingZeros, hrev]
      rw [List.dropWhile_cons_of_neg
          (by simp only [beq_iff_eq]; intro e; have h3 := (digitChar_eq_zero_iff _).mp e; omega)]
      rw [← hrev, List.reverse_reverse]
    refine ⟨by rw [hstrip, digits3]; simp, hmem, ?_⟩
    rw [hstrip, digitsToNat_digits3 m h1, digits3]
    norm_num

/-! Parsing back the strings the formatter produces. -/

theorem plain_chars_no_space {l : List Char}
    (hl : ∀ c ∈ l, isDigitChar c = true ∨ c = '.' ∨ c = feetChar) : ∀ c ∈ l, c ≠ ' ' := by
  intro c hc
  rcases hl c hc with h | h | h
  · exact ne_char_of_isDigitChar h (by decide)
  · rw [h]; decide
  · rw [h]; decide

theorem plain_chars_no_comma {l : List Char}
    (hl : ∀ c ∈ l, isDigitChar c = true ∨ c = '.' ∨ c = feetChar) : ∀ c ∈ l, c ≠ ',' := by
  intro c hc
  rcases hl c hc with h | h | h
  · exact ne_char_of_isDigitChar h (by decide)
  · rw [h]; decide
  · rw [h]; decide

theorem plain_chars_no_glyph {l : List Char}
    (hl : ∀ c ∈ l, isDigitChar c = true ∨ c = '.' ∨ c = feetChar) :
    ∀ e ∈ IMPERIAL_VULGAR_FRACTIONS, e.2 ∉ l := by
  intro e he hm
  rcases hl _ hm with h | h | h
  · have hf : isDigitChar e.2 = false := by fin_cases he <;> decide
    rw [h] at hf
    cases hf
  · have hf : e.2 ≠ '.' := by fin_cases he <;> decide
    exact hf h
  · have hf : e.2 ≠ feetChar := by fin_cases he <;> decide
    exact hf h

theorem processWidthInput_plainFeet (D : List Char) (u : UnitSystem)
    (hD : ∀ c ∈ D, isDigitChar c = true ∨ c = '.') :
    processWidthInput (some (D ++ [feetChar])) (some u) =
      some (parseStringForUnits (D ++ [feetChar]) (some u)) := by
  have hl : ∀ c ∈ D ++ [feetChar], isDigitChar c = true ∨ c = '.' ∨ c = feetChar := by
    intro c hc
    rcases List.mem_append.mp hc with h | h
    · rcases hD c h with h2 | h2
      · exact Or.inl h2
      · exact Or.inr (Or.inl h2)
    · simp only [List.mem_singleton] at h
      exact Or.inr (Or.inr h)
  apply processWidthInput_single _ _ _ (by simp)
  · rw [removeSpaces_eq_self (plain_chars_no_space hl),
      commasToPeriods_eq_self (plain_chars_no_comma hl),
      replaceVulgarFractions_eq_self (plain_chars_no_glyph hl)]
  · rw [List.dropLast_concat]
    intro hmem
    rcases hD _ hmem with h | h
    · have hf : isDigitChar feetChar = false := by decide
      rw [h] at hf
      cases hf
    · exact absurd h (by decide)

theorem formatThousandthsInt_eq (k : ℕ) (hk : k < 1000000) :
    formatThousandthsInt k = natToDigits (k / 1000) := by
  rw [formatThousandthsInt, groupThousands_eq_self]
  apply natToDigits_length_le _ 3 (by norm_num)
  have h3 : (10 : ℕ) ^ 3 = 1000 := by norm_num
  omega

theorem parse_formatThousandths (k : ℕ) (hk : k < 1000000) :
    processWidthInput (some (formatThousandths k ++ [feetChar])) (some UnitSystem.imperial) =
      some ((k : ℚ) / 1000) := by
  by_cases hz : k % 1000 = 0
  · have hfmt : formatThousandths k = natToDigits (k / 1000) := by
      rw [formatThousandths, formatThousandthsInt_eq k hk, formatThousandthsFrac, if_pos hz,
        List.append_nil]
    rw [hfmt, processWidthInput_plainFeet _ _ fun c hc => Or.inl (natToDigits_digits _ c hc),
      parseStringForUnits_intFeet _ _ (natToDigits_digits _) (natToDigits_ne_nil _),
      natToDigits_val]
    congr 1
    rw [Nat.cast_div (Nat.dvd_of_mod_eq_zero hz) (by norm_num)]
    norm_num
  · obtain ⟨hFne, hFdig, hFval⟩ := stripTrailingZeros_spec (k % 1000) (by omega) hz
    have hfmt : formatThousandths k =
        natToDigits (k / 1000) ++ '.' :: stripTrailingZeros (digits3 (k % 1000)) := by
      rw [formatThousandths, formatThousandthsInt_eq k hk, formatThousandthsFrac, if_neg hz]
    have hD : ∀ c ∈ natToDigits (k / 1000) ++ '.' :: stripTrailingZeros (digits3 (k % 1000)),
        isDigitChar c = true ∨ c = '.' := by
      intro c hc
      rcases List.mem_append.mp hc with h | h
      · exact Or.inl (natToDigits_digits _ c h)
      · rcases List.mem_cons.mp h with h2 | h2
        · exact Or.inr h2
        · exact Or.inl (hFdig c h2)
    rw [hfmt, processWidthInput_plainFeet _ _ hD,
      parseStringForUnits_fracFeet _ _ _ (natToDigits_digits _) hFdig hFne,
      natToDigits_val, hFval]
    congr 1
    have hsplit : (k : ℚ) = 1000 * ((k / 1000 : ℕ) : ℚ) + ((k % 1000 : ℕ) : ℚ) := by
      exact_mod_cast (Nat.div_add_mod k 1000).symm
    rw [hsplit]
    ring

/-! The stringify helper on the values met by the round trip. -/

theorem stringify_imperial_round (v : ℚ) (h0 : 0 ≤ v) (hne : v ≠ 0) :
    stringifyMeasurementValue v (some UnitSystem.imperial) =
      formatThousandths (Int.toNat ⌊v * 1000 + 1 / 2⌋) := by
  show (if v = 0 then ['0'] else formatDecimalEnUS (round3 v)) = _
  rw [if_neg hne, round3, if_neg (not_lt.mpr h0)]
  have hnn : (0 : ℤ) ≤ ⌊v * 1000 + 1 / 2⌋ := Int.floor_nonneg.mpr
    (by linarith [mul_nonneg h0 (show (0 : ℚ) ≤ 1000 by norm_num)])
  rw [formatDecimalEnUS, if_neg (not_lt.mpr (div_nonneg (by exact_mod_cast hnn) (by norm_num)))]
  congr 1
  have hcalc : ((⌊v * 1000 + 1 / 2⌋ : ℤ) : ℚ) / 1000 * 1000 = ((⌊v * 1000 + 1 / 2⌋ : ℤ) : ℚ) := by
    field_simp
  rw [hcalc, Int.floor_intCast]

theorem stringify_imperial_natCast (n : ℕ) (h1 : 1 ≤ n) (h2 : n ≤ 999) :
    stringifyMeasurementValue (n : ℚ) (some UnitSystem.imperial) = natToDigits n := by
  rw [stringify_imperial_round _ (by positivity) (Nat.cast_ne_zero.mpr (by omega))]
  have hfl : ⌊(n : ℚ) * 1000 + 1 / 2⌋ = 1000 * n := by
    have he : ((n : ℚ) * 1000 + 1 / 2) = 1 / 2 + ((1000 * n : ℤ) : ℚ) := by push_cast; ring
    rw [he, Int.floor_add_int]
    norm_num
  rw [hfl]
  have ht : Int.toNat (1000 * (n : ℤ)) = 1000 * n := by
    rw [show (1000 * (n : ℤ)) = ((1000 * n : ℕ) : ℤ) by push_cast; ring, Int.toNat_natCast]
  rw [show ((1000 * n : ℤ)) = 1000 * (n : ℤ) by ring, ht]
  rw [formatThousandths, formatThousandthsInt_eq _ (by omega), formatThousandthsFrac,
    if_pos (by omega : 1000 * n % 1000 = 0), show 1000 * n / 1000 = n by omega,
    List.append_nil]

/-! Case analysis of the vulgar-fraction lookup. -/

theorem vulgarGlyphOfRemainder_cases (r : ℚ) (g : Char)
    (h : vulgarGlyphOfRemainder r = some g) :
    (r = 1 / 8 ∧ g = '⅛') ∨ (r = 1 / 4 ∧ g = '¼') ∨ (r = 3 / 8 ∧ g = '⅜') ∨
      (r = 1 / 2 ∧ g = '½') ∨ (r = 5 / 8 ∧ g = '⅝') ∨ (r = 3 / 4 ∧ g = '¾') ∨
      (r = 7 / 8 ∧ g = '⅞') := by
  rw [vulgarGlyphOfRemainder] at h
  by_cases h1 : (1 : ℚ) / 8 = r
  · rw [List.find?_cons_of_pos _ (by simp only [decide_eq_true_eq]; exact h1)] at h
    simp only [Option.map_some', Option.some.injEq] at h
    exact Or.inl ⟨h1.symm, h.symm⟩
  · rw [List.find?_cons_of_neg _ (by simp only [decide_eq_true_eq]; exact h1)] at h
    by_cases h2 : (1 : ℚ) / 4 = r
    · rw [List.find?_cons_of_pos _ (by simp only [decide_eq_true_eq]; exact h2)] at h
      simp only [Option.map_some', Option.some.injEq] at h
      exact Or.inr (Or.inl ⟨h2.symm, h.symm⟩)
    · rw [List.find?_cons_of_neg _ (by simp only [decide_eq_true_eq]; exact h2)] at h
      by_cases h3 : (3 : ℚ) / 8 = r
      · rw [List.find?_cons_of_pos _ (by simp only [decide_eq_true_eq]; exact h3)] at h
        simp only [Option.map_some', Option.some.injEq] at h
        exact Or.inr (Or.inr (Or.inl ⟨h3.symm, h.symm⟩))
      · rw [List.find?_cons_of_neg _ (by simp only [decide_eq_true_eq]; exact h3)] at h
        by_cases h4 : (1 : ℚ) / 2 = r
        · rw [List.find?_cons_of_pos _ (by simp only [decide_eq_true_eq]; exact h4)] at h
          simp only [Option.map_some', Option.some.injEq] at h
          exact Or.inr (Or.inr (Or.inr (Or.inl ⟨h4.symm, h.symm⟩)))
        · rw [List.find?_cons_of_neg _ (by simp only [decide_eq_true_eq]; exact h4)] at h
          by_cases h5 : (5 : ℚ) / 8 = r
          · rw [List.find?_cons_of_pos _ (by simp only [decide_eq_true_eq]; exact h5)] at h
            simp only [Option.map_some', Option.some.injEq] at h
            exact Or.inr (Or.inr (Or.inr (Or.inr (Or.inl ⟨h5.symm, h.symm⟩))))
          · rw [List.find?_cons_of_neg _ (by simp only [decide_eq_true_eq]; exact h5)] at h
            by_cases h6 : (3 : ℚ) / 4 = r
            · rw [List.find?_cons_of_pos _ (by simp only [decide_eq_true_eq]; exact h6)] at h
              simp only [Option.map_some', Option.some.injEq] at h
              exact Or.inr (Or.inr (Or.inr (Or.inr (Or.inr (Or.inl ⟨h6.symm, h.symm⟩)))))
            · rw [List.find?_cons_of_neg _ (by simp only [decide_eq_true_eq]; exact h6)] at h
              by_cases h7 : (7 : ℚ) / 8 = r
              · rw [List.find?_cons_of_pos _ (by simp only [decide_eq_true_eq]; exact h7)] at h
                simp only [Option.map_some', Option.some.injEq] at h
                exact Or.inr (Or.inr (Or.inr (Or.inr (Or.inr (Or.inr ⟨h7.symm, h.symm⟩)))))
              · rw [List.find?_cons_of_neg _ (by simp only [decide_eq_true_eq]; exact h7)] at h
                simp at h

/-! Replacing the unique occurrence of a single glyph. -/

theorem foldl_replace_eq_self (L : List (List Char × Char)) (w : List Char)
    (h : ∀ e ∈ L, e.2 ∉ w) :
    L.foldl (fun acc f => replaceFirst f.2 f.1 acc) w = w := by
  induction L with
  | nil => rfl
  | cons f T ih =>
    simp only [List.foldl_cons]
    rw [replaceFirst_of_not_mem (h f (by simp))]
    exact ih fun e he => h e (by simp [he])

theorem foldl_replace_single (L : List (List Char × Char)) (w1 w2 ds : List Char) (g : Char)
    (hmem : (ds, g) ∈ L)
    (huniq : ∀ e ∈ L, e.2 = g → e = (ds, g))
    (h1 : ∀ e ∈ L, e.2 ∉ w1) (h2 : ∀ e ∈ L, e.2 ∉ w2)
    (hds : ∀ e ∈ L, e.2 ∉ ds)
    (hg1 : g ∉ w1) :
    L.foldl (fun acc f => replaceFirst f.2 f.1 acc) (w1 ++ g :: w2) = (w1 ++ ds) ++ w2 := by
  induction L with
  | nil => cases hmem
  | cons f T ih =>
    simp only [List.foldl_cons]
    by_cases hf : f.2 = g
    · have hfe : f = (ds, g) := huniq f (by simp) hf
      rw [hfe]
      show T.foldl _ (replaceFirst g ds (w1 ++ g :: w2)) = _
      rw [replaceFirst_append_cons w1 w2 hg1]
      apply foldl_replace_eq_self
      intro e he hm
      rcases List.mem_append.mp hm with hma | hma
      · rcases List.mem_append.mp hma with hmb | hmb
        · exact h1 e (by simp [he]) hmb
        · exact hds e (by simp [he]) hmb
      · exact h2 e (by simp [he]) hma
    · have hnm : f.2 ∉ w1 ++ g :: w2 := by
        intro hm
        rcases List.mem_append.mp hm with hma | hma
        · exact h1 f (by simp) hma
        · rcases List.mem_cons.mp hma with hmb | hmb
          · exact hf hmb
          · exact h2 f (by simp) hmb
      rw [replaceFirst_of_not_mem hnm]
      have hmemT : (ds, g) ∈ T := by
        rcases List.mem_cons.mp hmem with he | he
        · exfalso
          apply hf
          rw [← he]
        · exact he
      exact ih hmemT (fun e he hg => huniq e (by simp [he]) hg)
        (fun e he => h1 e (by simp [he])) (fun e he => h2 e (by simp [he]))
        (fun e he => hds e (by simp [he]))

theorem replaceVulgar_single_glyph (w1 w2 ds : List Char) (g : Char)
    (hmem : (ds, g) ∈ IMPERIAL_VULGAR_FRACTIONS)
    (h1 : ∀ e ∈ IMPERIAL_VULGAR_FRACTIONS, e.2 ∉ w1)
    (h2 : ∀ e ∈ IMPERIAL_VULGAR_FRACTIONS, e.2 ∉ w2) :
    replaceVulgarFractions (w1 ++ g :: w2) = (w1 ++ ds) ++ w2 := by
  have huniq : ∀ p ∈ IMPERIAL_VULGAR_FRACTIONS, ∀ e ∈ IMPERIAL_VULGAR_FRACTIONS,
      e.2 = p.2 → e = p := by decide
  have hds : ∀ p ∈ IMPERIAL_VULGAR_FRACTIONS, ∀ e ∈ IMPERIAL_VULGAR_FRACTIONS,
      e.2 ∉ p.1 := by decide
  exact foldl_replace_single IMPERIAL_VULGAR_FRACTIONS w1 w2 ds g hmem
    (fun e he hg => huniq (ds, g) hmem e he hg) h1 h2
    (fun e he => hds (ds, g) hmem e he) (h1 (ds, g) hmem)

theorem glyphs_not_mem_of_digits {N : List Char} (hN : ∀ c ∈ N, isDigitChar c = true) :
    ∀ e ∈ IMPERIAL_VULGAR_FRACTIONS, e.2 ∉ N := by
  intro e he
  apply not_mem_of_all_isDigitChar hN
  fin_cases he <;> decide

/-! Character exclusions for the markup marker. -/

theorem lt_not_mem_formatThousandths (k : ℕ) : '<' ∉ formatThousandths k := by
  intro hm
  rw [formatThousandths, formatThousandthsInt, formatThousandthsFrac] at hm
  rcases List.mem_append.mp hm with h | h
  · rcases mem_groupThousands _ _ h with h2 | h2
    · exact absurd (natToDigits_digits _ _ h2) (by decide)
    · exact absurd h2 (by decide)
  · by_cases hz : k % 1000 = 0
    · rw [if_pos hz] at h
      cases h
    · rw [if_neg hz] at h
      rcases List.mem_cons.mp h with h2 | h2
      · exact absurd h2 (by decide)
      · exact absurd (digits3_digits _ _ (mem_stripTrailingZeros _ _ h2)) (by decide)

theorem lt_not_mem_formatDecimal (q : ℚ) : '<' ∉ formatDecimalEnUS q := by
  rw [formatDecimalEnUS]
  split
  · intro hm
    rcases List.mem_cons.mp hm with h | h
    · exact absurd h (by decide)
    · exact lt_not_mem_formatThousandths _ h
  · exact lt_not_mem_formatThousandths _

theorem lt_not_mem_stringify (v : ℚ) (u : Option UnitSystem) :
    '<' ∉ stringifyMeasurementValue v u := by
  have h0 : '<' ∉ (['0'] : List Char) := by decide
  match u with
  | none =>
    show '<' ∉ (if v = 0 then ['0']
      else formatDecimalEnUS (round3 (v * IMPERIAL_METRIC_MULTIPLIER)))
    split
    · exact h0
    · exact lt_not_mem_formatDecimal _
  | some UnitSystem.imperial =>
    show '<' ∉ (if v = 0 then ['0'] else formatDecimalEnUS (round3 v))
    split
    · exact h0
    · exact lt_not_mem_formatDecimal _
  | some UnitSystem.metric =>
    show '<' ∉ (if v = 0 then ['0']
      else formatDecimalEnUS (round3 (v * IMPERIAL_METRIC_MULTIPLIER)))
    split
    · exact h0
    · exact lt_not_mem_formatDecimal _

theorem lt_not_mem_getImperial (v : ℚ) :
    '<' ∉ getImperialMeasurementWithVulgarFractions v := by
  cases hg : vulgarGlyphOfRemainder (v - ((⌊v⌋ : ℤ) : ℚ)) with
  | none =>
    simp only [getImperialMeasurementWithVulgarFractions, hg]
    exact lt_not_mem_stringify _ _
  | some fraction =>
    simp only [getImperialMeasurementWithVulgarFractions, hg]
    have hfr : fraction ≠ '<' := by
      rcases vulgarGlyphOfRemainder_cases _ _ hg with
        ⟨_, rfl⟩ | ⟨_, rfl⟩ | ⟨_, rfl⟩ | ⟨_, rfl⟩ | ⟨_, rfl⟩ | ⟨_, rfl⟩ | ⟨_, rfl⟩ <;> decide
    split
    · intro hm
      rcases List.mem_append.mp hm with h | h
      · exact lt_not_mem_stringify _ _ h
      · exact hfr (List.mem_singleton.mp h).symm
    · intro hm
      exact hfr (List.mem_singleton.mp hm).symm

/-! Unfolding `prettifyWidth` per unit system and markup flag. -/

theorem prettifyWidth_imperial_false (v : ℚ) :
    prettifyWidth v (some UnitSystem.imperial) false =
      getImperialMeasurementWithVulgarFractions v ++ [feetChar] := by
  show (getImperialMeasurementWithVulgarFractions v ++
    (if (false : Bool) then wbrMarker else [])) ++ [feetChar] = _
  simp

theorem prettifyWidth_imperial_true (v : ℚ) :
    prettifyWidth v (some UnitSystem.imperial) true =
      (getImperialMeasurementWithVulgarFractions v ++ wbrMarker) ++ [feetChar] := by
  show (getImperialMeasurementWithVulgarFractions v ++
    (if (true : Bool) then wbrMarker else [])) ++ [feetChar] = _
  simp

theorem prettifyWidth_metric_false (v : ℚ) :
    prettifyWidth v (some UnitSystem.metric) false =
      stringifyMeasurementValue v (some UnitSystem.metric) ++ [' ', 'm'] := by
  show (stringifyMeasurementValue v (some UnitSystem.metric) ++
    (if (false : Bool) then wbrMarker ++ [' '] else [])) ++ [' ', 'm'] = _
  simp

theorem prettifyWidth_metric_true (v : ℚ) :
    prettifyWidth v (some UnitSystem.metric) true =
      ((stringifyMeasurementValue v (some UnitSystem.metric) ++ wbrMarker) ++ [' ']) ++
        [' ', 'm'] := by
  show (stringifyMeasurementValue v (some UnitSystem.metric) ++
    (if (true : Bool) then wbrMarker ++ [' '] else [])) ++ [' ', 'm'] = _
  simp

/-! Claim theorems, one per claim of the specification, with witnesses and
counterexamples. -/

/-- C2: a compound feet-and-inches input (a feet marker in non-final
position in the normalized text) is split at the marker; the feet part with
the marker re-appended is parsed without a unit argument, the inches part
(an inches marker appended when absent) is parsed with the given unit
system, and the results are summed. -/
theorem compound_input_splits_and_sums (s feet inches : List Char) (u : UnitSystem)
    (hs : s ≠ [])
    (hnorm : replaceVulgarFractions (commasToPeriods (removeSpaces s)) =
      feet ++ feetChar :: inches)
    (hf : feetChar ∉ feet) (hi : feetChar ∉ inches) (hine : inches ≠ []) :
    processWidthInput (some s) (some u) =
      some (parseStringForUnits (feet ++ [feetChar]) none +
        parseStringForUnits (ensureInches inches) (some u)) := by
  have hq : feetChar ∈ (feet ++ feetChar :: inches).dropLast := by
    obtain ⟨i0, ir, rfl⟩ := List.exists_cons_of_ne_nil hine
    rw [List.dropLast_append_cons]
    simp
  rw [processWidthInput_compound s (feet ++ feetChar :: inches) u hs hnorm hq,
    processCompound_two feet inches u hf hi]

/-- C2 witness: `processWidthInput("5'7\"", IMPERIAL) = 5 + 7/12`. -/
theorem compound_input_splits_and_sums_witness :
    processWidthInput (some ['5', feetChar, '7', inchChar]) (some UnitSystem.imperial) =
      some (5 + 7 / 12) := by
  rw [compound_input_splits_and_sums ['5', feetChar, '7', inchChar] ['5'] ['7', inchChar]
    UnitSystem.imperial (by decide) (by decide) (by decide) (by decide) (by decide)]
  decide

/-- C3: `processWidthInput` returns no value exactly when the input string
is missing or empty or the unit system is missing. -/
theorem processWidthInput_none_iff (s : Option (List Char)) (u : Option UnitSystem) :
    processWidthInput s u = none ↔ s = none ∨ s = some [] ∨ u = none := by
  cases s with
  | none => simp [processWidthInput]
  | some w =>
    cases u with
    | none => simp [processWidthInput]
    | some uu =>
      simp only [processWidthInput]
      by_cases hw : w.isEmpty
      · simp [hw, List.isEmpty_iff.mp hw]
      · rw [if_neg hw]
        constructor
        · intro h
          exfalso
          by_cases hq : feetChar ∈
              (replaceVulgarFractions (commasToPeriods (removeSpaces w))).dropLast
          · rw [if_pos hq] at h; cases h
          · rw [if_neg hq] at h; cases h
        · rintro (h | h | h)
          · cases h
          · injection h with h
            exact absurd (List.isEmpty_iff.mpr h) hw
          · cases h

/-- C4: a token whose dash-stripped text parses to zero or to no number at
all contributes exactly `0`; in particular the zero-feet token of `0'7"`
contributes `0` and the whole input parses to `7/12`. -/
theorem zero_or_nan_token_contributes_zero (s : List Char) (u : Option UnitSystem)
    (h : jsParseFloat (dashStripped s) = none ∨ jsParseFloat (dashStripped s) = some 0) :
    parseStringForUnits s u = 0 ∧
      processWidthInput (some ['0', feetChar, '7', inchChar]) (some UnitSystem.imperial) =
        some (7 / 12) := by
  constructor
  · rcases h with h | h
    · exact parseStringForUnits_of_parse_none _ _ h
    · rw [parseStringForUnits_of_parse_some _ _ _ h, if_pos rfl]
  · decide

/-- C4 witness: an unparseable token (`"x"`) contributes `0`. -/
theorem zero_or_nan_token_contributes_zero_witness :
    (jsParseFloat (dashStripped ['x']) = none ∨ jsParseFloat (dashStripped ['x']) = some 0) ∧
      (parseStringForUnits ['x'] none = 0 ∧
        processWidthInput (some ['0', feetChar, '7', inchChar]) (some UnitSystem.imperial) =
          some (7 / 12)) :=
  ⟨Or.inl (by decide), zero_or_nan_token_contributes_zero ['x'] none (Or.inl (by decide))⟩

/-- C5: under the METRIC unit system, a nonzero token whose suffix scan
yields the `m` entry, or no entry at all, is multiplied by
`1 / (30/100)`; in particular `processWidthInput("1m", METRIC) =
1 / (30/100)`. -/
theorem metric_input_times_inverse_multiplier (s : List Char) (w : ℚ)
    (hw : jsParseFloat (dashStripped s) = some w) (hnz : w ≠ 0)
    (hsuf : findSuffixMultiplier (dashStripped s) = some (1 / IMPERIAL_METRIC_MULTIPLIER) ∨
      findSuffixMultiplier (dashStripped s) = none) :
    parseStringForUnits s (some UnitSystem.metric) = w * (1 / IMPERIAL_METRIC_MULTIPLIER) ∧
      processWidthInput (some ['1', 'm']) (some UnitSystem.metric) = some (1 / (30 / 100)) := by
  constructor
  · rw [parseStringForUnits_of_parse_some _ _ _ hw, if_neg hnz]
    rcases hsuf with h | h <;> rw [h] <;> simp [defaultMultiplier]
  · decide

/-- C5 witness: `"1m"` itself. -/
theorem metric_input_times_inverse_multiplier_witness :
    (jsParseFloat (dashStripped ['1', 'm']) = some 1 ∧ (1 : ℚ) ≠ 0 ∧
      findSuffixMultiplier (dashStripped ['1', 'm']) = some (1 / IMPERIAL_METRIC_MULTIPLIER)) ∧
      (parseStringForUnits ['1', 'm'] (some UnitSystem.metric) =
          1 * (1 / IMPERIAL_METRIC_MULTIPLIER) ∧
        processWidthInput (some ['1', 'm']) (some UnitSystem.metric) = some (1 / (30 / 100))) :=
  ⟨⟨by decide, by decide, by decide⟩,
    metric_input_times_inverse_multiplier ['1', 'm'] 1 (by decide) (by decide)
      (Or.inl (by decide))⟩

/-- C6 counterexample: not every vulgar-fraction glyph occurrence is
replaced — each glyph is replaced only once, so the second `½` of `½'½"`
survives the substitution and the input parses to `1/2` instead of the
`1/2 + 1/24` that full substitution would give. -/
theorem vulgar_second_glyph_not_replaced :
    '½' ∈ replaceVulgarFractions ['½', feetChar, '½', inchChar] ∧
      processWidthInput (some ['½', feetChar, '½', inchChar]) (some UnitSystem.imperial) =
        some (1 / 2) := by
  constructor
  · decide
  · decide

/-- C6 (amended): when every vulgar-fraction glyph occurs at most once in
the string, the substitution replaces each occurring glyph (none survives),
and the substitution happens before the compound feet/inches split, so
`processWidthInput("5'½\"", IMPERIAL) = 5 + (1/2)·(1/12)`. -/
theorem vulgar_glyphs_replaced_before_split (s : List Char)
    (hcnt : ∀ e ∈ IMPERIAL_VULGAR_FRACTIONS, s.count e.2 ≤ 1) :
    (∀ e ∈ IMPERIAL_VULGAR_FRACTIONS, e.2 ∉ replaceVulgarFractions s) ∧
      processWidthInput (some ['5', feetChar, '½', inchChar]) (some UnitSystem.imperial) =
        some (5 + 1 / 2 * (1 / 12)) := by
  constructor
  · exact foldl_replace_all_gone IMPERIAL_VULGAR_FRACTIONS s hcnt (by decide)
  · decide

/-- C6 witness: the single-glyph string `"½"`. -/
theorem vulgar_glyphs_replaced_before_split_witness :
    (∀ e ∈ IMPERIAL_VULGAR_FRACTIONS, List.count e.2 ['½'] ≤ 1) ∧
      ((∀ e ∈ IMPERIAL_VULGAR_FRACTIONS, e.2 ∉ replaceVulgarFractions ['½']) ∧
        processWidthInput (some ['5', feetChar, '½', inchChar]) (some UnitSystem.imperial) =
          some (5 + 1 / 2 * (1 / 12))) :=
  ⟨by decide, vulgar_glyphs_replaced_before_split ['½'] (by decide)⟩

/-- C8: parsing is invariant under replacing comma decimal separators with
periods; in particular `parse("1,5m", METRIC) = parse("1.5m", METRIC)`. -/
theorem comma_period_parse_invariance (s : List Char) (u : UnitSystem) :
    processWidthInput (some (commasToPeriods s)) (some u) =
        processWidthInput (some s) (some u) ∧
      processWidthInput (some ['1', ',', '5', 'm']) (some UnitSystem.metric) =
        processWidthInput (some ['1', '.', '5', 'm']) (some UnitSystem.metric) := by
  constructor
  · have e1 : (commasToPeriods s).isEmpty = s.isEmpty := by
      cases s <;> simp [commasToPeriods]
    simp only [processWidthInput, removeSpaces_commasToPeriods, commasToPeriods_idem, e1]
  · decide

/-- C10: `processWidthInput` never produces a negative width: every defined
result is nonnegative. -/
theorem processWidthInput_nonneg (s : Option (List Char)) (u : Option UnitSystem) (q : ℚ)
    (h : processWidthInput s u = some q) : 0 ≤ q := by
  cases s with
  | none => cases h
  | some w =>
    cases u with
    | none => cases h
    | some uu =>
      simp only [processWidthInput] at h
      by_cases hw : w.isEmpty
      · rw [if_pos hw] at h; cases h
      · rw [if_neg hw] at h
        by_cases hq : feetChar ∈
            (replaceVulgarFractions (commasToPeriods (removeSpaces w))).dropLast
        · rw [if_pos hq] at h
          injection h with h
          rw [← h]
          exact processCompound_nonneg _ _
        · rw [if_neg hq] at h
          injection h with h
          rw [← h]
          exact parseStringForUnits_nonneg _ _

/-- C10 witness: `parse("5'", IMPERIAL) = 5 ≥ 0`. -/
theorem processWidthInput_nonneg_witness :
    processWidthInput (some ['5', feetChar]) (some UnitSystem.imperial) = some 5 ∧
      (0 : ℚ) ≤ 5 :=
  ⟨by decide, processWidthInput_nonneg (some ['5', feetChar]) (some UnitSystem.imperial) 5
    (by decide)⟩

/-- C7: when the fractional remainder of a value formatted as IMPERIAL has a
vulgar-fraction glyph, `prettifyWidth` renders the stringified integer part
(omitted when the floor is zero) followed by the glyph and the feet marker;
in particular `prettifyWidth(0.5, IMPERIAL)` is the glyph `½` followed by
the feet marker. -/
theorem prettify_imperial_vulgar_fraction (v : ℚ) (g : Char)
    (h : vulgarGlyphOfRemainder (v - ((⌊v⌋ : ℤ) : ℚ)) = some g) :
    ((⌊v⌋ : ℤ) = 0 → prettifyWidth v (some UnitSystem.imperial) false = [g, feetChar]) ∧
      ((⌊v⌋ : ℤ) ≠ 0 → prettifyWidth v (some UnitSystem.imperial) false =
        (stringifyMeasurementValue ((⌊v⌋ : ℤ) : ℚ) (some UnitSystem.imperial) ++ [g]) ++
          [feetChar]) ∧
      prettifyWidth (1 / 2) (some UnitSystem.imperial) false = ['½', feetChar] := by
  refine ⟨?_, ?_, by decide⟩
  · intro hz
    rw [prettifyWidth_imperial_false]
    simp only [getImperialMeasurementWithVulgarFractions, h]
    rw [if_neg fun hn => hn hz]
    rfl
  · intro hz
    rw [prettifyWidth_imperial_false]
    simp only [getImperialMeasurementWithVulgarFractions, h]
    rw [if_pos hz]

/-- C7 witness: the value `0.5`. -/
theorem prettify_imperial_vulgar_fraction_witness :
    vulgarGlyphOfRemainder ((1 / 2 : ℚ) - ((⌊(1 / 2 : ℚ)⌋ : ℤ) : ℚ)) = some '½' ∧
      prettifyWidth (1 / 2) (some UnitSystem.imperial) false = ['½', feetChar] :=
  ⟨by decide, (prettify_imperial_vulgar_fraction (1 / 2) '½' (by decide)).1 (by decide)⟩

/-- C9 counterexample: for METRIC output with markup the marker is NOT
immediately before the unit suffix: the output is `0.3<wbr>  m`, in which
the marker is followed by a space and then the suffix ` m`, so neither
`<wbr> m` nor `<wbr>m` is a suffix of the output. -/
theorem wbr_metric_marker_not_adjacent :
    prettifyWidth 1 (some UnitSystem.metric) true =
        ['0', '.', '3', '<', 'w', 'b', 'r', '>', ' ', ' ', 'm'] ∧
      List.isSuffixOf ['<', 'w', 'b', 'r', '>', ' ', 'm']
          (prettifyWidth 1 (some UnitSystem.metric) true) = false ∧
      List.isSuffixOf ['<', 'w', 'b', 'r', '>', 'm']
          (prettifyWidth 1 (some UnitSystem.metric) true) = false :=
  ⟨by decide, by decide, by decide⟩

/-- C9 (amended): with `markup: true` the output contains the `<wbr>` marker
exactly once (the part before it and the unit tail are `<`-free); for
IMPERIAL the marker immediately precedes the feet-marker suffix, while for
METRIC the marker is followed by one extra space and then the suffix ` m`;
with `markup: false` the output is the same text without the inserted
marker (and contains no `<` at all). -/
theorem wbr_marker_once_before_suffix (v : ℚ) (u : UnitSystem) :
    ∃ pre : List Char,
      prettifyWidth v (some u) false =
          pre ++ (if u = UnitSystem.imperial then [feetChar] else [' ', 'm']) ∧
        prettifyWidth v (some u) true =
          (pre ++ wbrMarker ++ (if u = UnitSystem.imperial then [] else [' '])) ++
            (if u = UnitSystem.imperial then [feetChar] else [' ', 'm']) ∧
        '<' ∉ pre := by
  cases u with
  | imperial =>
    refine ⟨getImperialMeasurementWithVulgarFractions v, ?_, ?_, lt_not_mem_getImperial v⟩
    · rw [prettifyWidth_imperial_false]
      simp
    · rw [prettifyWidth_imperial_true]
      simp
  | metric =>
    refine ⟨stringifyMeasurementValue v (some UnitSystem.metric), ?_, ?_,
      lt_not_mem_stringify _ _⟩
    · rw [prettifyWidth_metric_false]
      simp
    · rw [prettifyWidth_metric_true]
      simp

/-- C1 counterexample: at `v = 1000` the imperial display string is
`1,000'` (en-US thousands grouping); parsing turns the comma into a decimal
point, so the round trip returns `1`, at distance `999` from `1000`. -/
theorem roundTrip_grouping_counterexample :
    processWidthInput (some (prettifyWidth 1000 (some UnitSystem.imperial) false))
        (some UnitSystem.imperial) = some 1 ∧
      ¬ (|(1 : ℚ) - 1000| ≤ 1 / 8) :=
  ⟨by decide, by decide⟩

/-- C1 (amended): for every canonical value `v` with `0 ≤ v < 999.9995`
(so the displayed value stays below 1000 and no thousands separator
appears), parsing the imperial display string back yields a value within
`1/8` (the smallest displayed vulgar-fraction unit) of `v`. -/
theorem roundTrip_imperial_within_eighth (v : ℚ) (h0 : 0 ≤ v) (h1 : v < 1999999 / 2000) :
    ∃ w : ℚ, processWidthInput (some (prettifyWidth v (some UnitSystem.imperial) false))
        (some UnitSystem.imperial) = some w ∧ |w - v| ≤ 1 / 8 := by
  cases hg : vulgarGlyphOfRemainder (v - ((⌊v⌋ : ℤ) : ℚ)) with
  | none =>
    refine ⟨((Int.toNat ⌊v * 1000 + 1 / 2⌋ : ℕ) : ℚ) / 1000, ?_, ?_⟩
    · have hpretty : prettifyWidth v (some UnitSystem.imperial) false =
          formatThousandths (Int.toNat ⌊v * 1000 + 1 / 2⌋) ++ [feetChar] := by
        rw [prettifyWidth_imperial_false]
        congr 1
        simp only [getImperialMeasurementWithVulgarFractions, hg]
        by_cases hv : v = 0
        · subst hv
          decide
        · exact stringify_imperial_round v h0 hv
      rw [hpretty]
      apply parse_formatThousandths
      have hlt : ⌊v * 1000 + 1 / 2⌋ < 1000000 := by
        rw [Int.floor_lt]
        push_cast
        linarith
      omega
    · have hnn : (0 : ℤ) ≤ ⌊v * 1000 + 1 / 2⌋ := Int.floor_nonneg.mpr
        (by linarith [mul_nonneg h0 (show (0 : ℚ) ≤ 1000 by norm_num)])
      have hcast : ((Int.toNat ⌊v * 1000 + 1 / 2⌋ : ℕ) : ℚ) =
          ((⌊v * 1000 + 1 / 2⌋ : ℤ) : ℚ) := by
        rw [← Int.cast_natCast, Int.toNat_of_nonneg hnn]
      rw [hcast]
      have hle : ((⌊v * 1000 + 1 / 2⌋ : ℤ) : ℚ) ≤ v * 1000 + 1 / 2 := Int.floor_le _
      have hgt : v * 1000 + 1 / 2 - 1 < ((⌊v * 1000 + 1 / 2⌋ : ℤ) : ℚ) :=
        Int.sub_one_lt_floor _
      rw [abs_le]
      constructor
      · linarith
      · linarith
  | some g =>
    obtain ⟨FR, hmem, hFRdig, hFRne, hFRval⟩ :
        ∃ FR : List Char, (('.' :: FR, g) ∈ IMPERIAL_VULGAR_FRACTIONS) ∧
          (∀ c ∈ FR, isDigitChar c = true) ∧ FR ≠ [] ∧
          ((digitsToNat FR : ℚ) / (10 : ℚ) ^ FR.length = v - ((⌊v⌋ : ℤ) : ℚ)) := by
      rcases vulgarGlyphOfRemainder_cases _ _ hg with
        ⟨hr, rfl⟩ | ⟨hr, rfl⟩ | ⟨hr, rfl⟩ | ⟨hr, rfl⟩ | ⟨hr, rfl⟩ | ⟨hr, rfl⟩ | ⟨hr, rfl⟩
      · exact ⟨['1', '2', '5'], by decide, by decide, by decide, by rw [hr]; decide⟩
      · exact ⟨['2', '5'], by decide, by decide, by decide, by rw [hr]; decide⟩
      · exact ⟨['3', '7', '5'], by decide, by decide, by decide, by rw [hr]; decide⟩
      · exact ⟨['5'], by decide, by decide, by decide, by rw [hr]; decide⟩
      · exact ⟨['6', '2', '5'], by decide, by decide, by decide, by rw [hr]; decide⟩
      · exact ⟨['7', '5'], by decide, by decide, by decide, by rw [hr]; decide⟩
      · exact ⟨['8', '7', '5'], by decide, by decide, by decide, by rw [hr]; decide⟩
    have hfl0 : (0 : ℤ) ≤ ⌊v⌋ := Int.floor_nonneg.mpr h0
    have hfl999 : ⌊v⌋ ≤ 999 := by
      have hv1000 : v < 1000 := lt_of_lt_of_le h1 (by norm_num)
      have hlt : ⌊v⌋ < (1000 : ℤ) := Int.floor_lt.mpr (by exact_mod_cast hv1000)
      omega
    have hgchar : g ≠ ' ' ∧ g ≠ ',' := by
      rcases vulgarGlyphOfRemainder_cases _ _ hg with
        ⟨_, rfl⟩ | ⟨_, rfl⟩ | ⟨_, rfl⟩ | ⟨_, rfl⟩ | ⟨_, rfl⟩ | ⟨_, rfl⟩ | ⟨_, rfl⟩ <;>
        exact ⟨by decide, by decide⟩
    obtain ⟨N, hNpretty, hNdig, hNval⟩ :
        ∃ N : List Char,
          prettifyWidth v (some UnitSystem.imperial) false = (N ++ [g]) ++ [feetChar] ∧
            (∀ c ∈ N, isDigitChar c = true) ∧ ((digitsToNat N : ℚ) = ((⌊v⌋ : ℤ) : ℚ)) := by
      by_cases hz : (⌊v⌋ : ℤ) = 0
      · refine ⟨[], ?_, by simp, by simp [digitsToNat, hz]⟩
        rw [prettifyWidth_imperial_false]
        simp only [getImperialMeasurementWithVulgarFractions, hg]
        rw [if_neg fun hn => hn hz]
        rfl
      · refine ⟨natToDigits (⌊v⌋.toNat), ?_, natToDigits_digits _, ?_⟩
        · rw [prettifyWidth_imperial_false]
          simp only [getImperialMeasurementWithVulgarFractions, hg]
          rw [if_pos hz]
          have hc : ((⌊v⌋.toNat : ℕ) : ℚ) = ((⌊v⌋ : ℤ) : ℚ) := by
            rw [← Int.cast_natCast, Int.toNat_of_nonneg hfl0]
          rw [← hc, stringify_imperial_natCast _ (by omega) (by omega)]
        · rw [natToDigits_val, ← Int.cast_natCast, Int.toNat_of_nonneg hfl0]
    refine ⟨v, ?_, by rw [sub_self, abs_zero]; norm_num⟩
    rw [hNpretty]
    have hNglyphfree : ∀ e ∈ IMPERIAL_VULGAR_FRACTIONS, e.2 ∉ N :=
      glyphs_not_mem_of_digits hNdig
    have hfeetfree : ∀ e ∈ IMPERIAL_VULGAR_FRACTIONS, e.2 ∉ ([feetChar] : List Char) := by
      decide
    have hshape : (N ++ [g]) ++ [feetChar] = N ++ g :: [feetChar] := by simp
    have hw2 : replaceVulgarFractions (commasToPeriods (removeSpaces ((N ++ [g]) ++ [feetChar]))) =
        (N ++ '.' :: FR) ++ [feetChar] := by
      have hsp : ∀ c ∈ (N ++ [g]) ++ [feetChar], c ≠ ' ' := by
        intro c hc
        rcases List.mem_append.mp hc with h | h
        · rcases List.mem_append.mp h with h2 | h2
          · exact ne_char_of_isDigitChar (hNdig c h2) (by decide)
          · rw [List.mem_singleton.mp h2]
            exact hgchar.1
        · rw [List.mem_singleton.mp h]
          decide
      have hcm : ∀ c ∈ (N ++ [g]) ++ [feetChar], c ≠ ',' := by
        intro c hc
        rcases List.mem_append.mp hc with h | h
        · rcases List.mem_append.mp h with h2 | h2
          · exact ne_char_of_isDigitChar (hNdig c h2) (by decide)
          · rw [List.mem_singleton.mp h2]
            exact hgchar.2
        · rw [List.mem_singleton.mp h]
          decide
      rw [removeSpaces_eq_self hsp, commasToPeriods_eq_self hcm, hshape,
        replaceVulgar_single_glyph N [feetChar] ('.' :: FR) g hmem hNglyphfree hfeetfree]
    have hdrop : feetChar ∉ ((N ++ '.' :: FR) ++ [feetChar]).dropLast := by
      rw [List.dropLast_concat]
      intro hmemq
      rcases List.mem_append.mp hmemq with h | h
      · exact absurd (hNdig _ h) (by decide)
      · rcases List.mem_cons.mp h with h2 | h2
        · exact absurd h2 (by decide)
        · exact absurd (hFRdig _ h2) (by decide)
    rw [processWidthInput_single _ _ _ (by simp) hw2 hdrop,
      parseStringForUnits_fracFeet N FR _ hNdig hFRdig hFRne, hNval, hFRval]
    congr 1
    ring

/-- C1 witness: the value `1/2` round-trips exactly. -/
theorem roundTrip_imperial_within_eighth_witness :
    ((0 : ℚ) ≤ 1 / 2 ∧ (1 / 2 : ℚ) < 1999999 / 2000) ∧
      ∃ w : ℚ,
        processWidthInput (some (prettifyWidth (1 / 2) (some UnitSystem.imperial) false))
            (some UnitSystem.imperial) = some w ∧ |w - 1 / 2| ≤ 1 / 8 :=
  ⟨⟨by norm_num, by norm_num⟩,
    roundTrip_imperial_within_eighth (1 / 2) (by norm_num) (by norm_num)⟩

end StreetmixWidth
